import Mathlib

set_option linter.unreachableTactic false
set_option linter.unnecessarySeqFocus false
set_option linter.unusedTactic false
set_option linter.unusedVariables false

/-!
Shallow embedding of the editorlint core (github.com/cdobbyn/editorlint).

File contents are modelled as `List Char` ("bytes"): every comparison the Go
code performs on content bytes is against ASCII characters (`\r`, `\n`, space,
tab, `/`, ...), so a UTF-8 byte buffer and its rune list transform identically.
Go strings used as configuration values and patterns are modelled the same way.

The Go fixer functions return an `error` component that is the literal `nil`
constant in every return statement of `FixInsertFinalNewline`,
`FixTrimTrailingWhitespace` and `FixEndOfLine`, so the fixers are embedded as
total functions returning `(content, changed)`.
-/

namespace Editorlint

abbrev Bytes := List Char

/-- The scan of Go `bytes.ReplaceAll`, with a fuel argument so that it is
structurally recursive (and so computes by kernel reduction): every step
consumes at least one character of `s` when `pat` is nonempty, so fuel
`s.length` always suffices. -/
def replaceAllF (fuel : Nat) (s pat rep : Bytes) : Bytes :=
  match fuel, s with
  | 0, s => s
  | _ + 1, [] => []
  | fuel + 1, c :: t =>
    if pat.isPrefixOf (c :: t) then
      rep ++ replaceAllF fuel ((c :: t).drop pat.length) pat rep
    else
      c :: replaceAllF fuel t pat rep

/-- Go `bytes.ReplaceAll(s, pat, rep)` (for nonempty `pat`): left-to-right,
non-overlapping replacement. An empty `pat` is never passed in this codebase;
the model returns `s` unchanged in that case. -/
def replaceAll (s pat rep : Bytes) : Bytes :=
  if pat = [] then s else replaceAllF s.length s pat rep

/-- Go `bytes.Contains(s, pat)`. -/
def containsSeq (s pat : Bytes) : Bool :=
  pat.isPrefixOf s ||
    match s with
    | [] => false
    | _ :: t => containsSeq t pat

/-- Go `bytes.Split(content, sep)` for a single-byte separator. -/
def splitOnChar (sep : Char) : Bytes → List Bytes
  | [] => [[]]
  | c :: rest =>
    if c = sep then [] :: splitOnChar sep rest
    else
      match splitOnChar sep rest with
      | [] => [[c]]
      | l :: ls => (c :: l) :: ls

/-- Go `strings.Join(xs, sep)` / `bytes.Join`. -/
def joinWith (sep : Bytes) : List Bytes → Bytes
  | [] => []
  | [l] => l
  | l :: ls => l ++ sep ++ joinWith sep ls

/-- `config.ResolvedConfig`: the zero value of every field is "unset"
(empty string / nil pointer). -/
structure ResolvedConfig where
  IndentStyle : Bytes := []
  IndentSize : Option Int := none
  TabWidth : Option Int := none
  EndOfLine : Bytes := []
  Charset : Bytes := []
  TrimTrailingWhitespace : Option Bool := none
  InsertFinalNewline : Option Bool := none
  MaxLineLength : Option Int := none
deriving DecidableEq, Repr

/-- `rules.ValidationError`. -/
structure ValidationError where
  FilePath : Bytes
  Rule : Bytes
  Message : Bytes
deriving DecidableEq, Repr

/-- `rules.isWhitespace`: space or tab. -/
def isWhitespaceB (b : Char) : Bool := b = ' ' || b = '\t'

/-- `getEndOfLineDescription`. -/
def getEndOfLineDescription (endOfLine : Bytes) : Bytes :=
  if endOfLine = "crlf".toList then "CRLF (\\r\\n)".toList
  else if endOfLine = "cr".toList then "CR (\\r)".toList
  else if endOfLine = "lf".toList || endOfLine = [] then "LF (\\n)".toList
  else "unknown line ending: ".toList ++ endOfLine

/-- Decimal rendering of a natural number, as Go `%d` prints it. -/
def natDec (n : Nat) : Bytes := (toString n).toList

/-- Hex digit. -/
def hexDigit (n : Nat) : Char :=
  if n < 10 then Char.ofNat (48 + n) else Char.ofNat (87 + n)

/-- Go `%02x` of a byte value. -/
def hex2 (n : Nat) : Bytes := [hexDigit (n / 16 % 16), hexDigit (n % 16)]

/-- `rules.ValidateInsertFinalNewline`. -/
def validateInsertFinalNewline (filePath : Bytes) (content : Bytes)
    (cfg : ResolvedConfig) : Option ValidationError :=
  if cfg.InsertFinalNewline ≠ some true then none
  else if content = [] then
    some ⟨filePath, "insert_final_newline".toList,
      "empty file should end with a newline".toList⟩
  else
    let lastChar := content.getLast?.getD ' '
    let expectedEnding := if cfg.EndOfLine = [] then "lf".toList else cfg.EndOfLine
    if 2 ≤ content.length ∧ content.get? (content.length - 2) = some '\r' ∧
        lastChar = '\n' then
      -- actual ending CRLF
      if "crlf".toList ≠ expectedEnding then
        some ⟨filePath, "insert_final_newline".toList,
          "file should end with ".toList ++ getEndOfLineDescription expectedEnding ++
            ", but ends with ".toList ++ getEndOfLineDescription ("crlf".toList)⟩
      else none
    else if lastChar = '\r' then
      if "cr".toList ≠ expectedEnding then
        some ⟨filePath, "insert_final_newline".toList,
          "file should end with ".toList ++ getEndOfLineDescription expectedEnding ++
            ", but ends with ".toList ++ getEndOfLineDescription ("cr".toList)⟩
      else none
    else if lastChar = '\n' then
      if "lf".toList ≠ expectedEnding then
        some ⟨filePath, "insert_final_newline".toList,
          "file should end with ".toList ++ getEndOfLineDescription expectedEnding ++
            ", but ends with ".toList ++ getEndOfLineDescription ("lf".toList)⟩
      else none
    else
      some ⟨filePath, "insert_final_newline".toList,
        "file should end with ".toList ++ getEndOfLineDescription cfg.EndOfLine ++
          ", but ends with character '".toList ++ [lastChar] ++ "' (0x".toList ++
          hex2 lastChar.toNat ++ ")".toList⟩

/-- `rules.FixInsertFinalNewline` (the Go error component is always nil). -/
def fixInsertFinalNewline (_filePath : Bytes) (content : Bytes)
    (cfg : ResolvedConfig) : Bytes × Bool :=
  if cfg.InsertFinalNewline ≠ some true then (content, false)
  else
    let expectedEnding := if cfg.EndOfLine = [] then "lf".toList else cfg.EndOfLine
    let expectedBytes :=
      if expectedEnding = "crlf".toList then "\r\n".toList
      else if expectedEnding = "cr".toList then "\r".toList
      else "\n".toList
    if content = [] then (expectedBytes, true)
    else
      let lastChar := content.getLast?.getD ' '
      if 2 ≤ content.length ∧ content.get? (content.length - 2) = some '\r' ∧
          lastChar = '\n' then
        if expectedEnding ≠ "crlf".toList then
          (content.take (content.length - 2) ++ expectedBytes, true)
        else (content, false)
      else if lastChar = '\r' then
        if expectedEnding ≠ "cr".toList then
          (content.take (content.length - 1) ++ expectedBytes, true)
        else (content, false)
      else if lastChar = '\n' then
        if expectedEnding ≠ "lf".toList then
          (content.take (content.length - 1) ++ expectedBytes, true)
        else (content, false)
      else
        (content ++ expectedBytes, true)

/-- Go `bytes.TrimRightFunc(line, r == ' ' || r == '\t')`. -/
def trimRightWS (l : Bytes) : Bytes :=
  (l.reverse.dropWhile isWhitespaceB).reverse

/-- The per-line scan of `ValidateTrimTrailingWhitespace`: `total` is
`len(lines)`, `i` the index of the head of `ls`; returns the 1-based number of
the first line with trailing whitespace. The loop skips the last line when it
is empty (the segment after a final newline). -/
def checkLinesFrom (total i : Nat) : List Bytes → Option Nat
  | [] => none
  | l :: rest =>
    if i = total - 1 ∧ l = [] then checkLinesFrom total (i + 1) rest
    else if l ≠ [] ∧ (l.getLast?.map isWhitespaceB = some true) then some (i + 1)
    else checkLinesFrom total (i + 1) rest

/-- `rules.ValidateTrimTrailingWhitespace`. -/
def validateTrimTrailingWhitespace (filePath : Bytes) (content : Bytes)
    (cfg : ResolvedConfig) : Option ValidationError :=
  if cfg.TrimTrailingWhitespace ≠ some true then none
  else if content = [] then none
  else
    (checkLinesFrom (splitOnChar '\n' content).length 0
        (splitOnChar '\n' content)).map fun lineNum =>
      ⟨filePath, "trim_trailing_whitespace".toList,
        "line ".toList ++ natDec lineNum ++ " has trailing whitespace".toList⟩

/-- The per-line trimming loop of `FixTrimTrailingWhitespace` (the in-place
`lines[i] = trimmed` assignments). -/
def trimLinesFrom (total i : Nat) : List Bytes → List Bytes
  | [] => []
  | l :: rest =>
    if i = total - 1 ∧ l = [] then l :: trimLinesFrom total (i + 1) rest
    else trimRightWS l :: trimLinesFrom total (i + 1) rest

/-- The rejoin loop of `FixTrimTrailingWhitespace`, with its conditional
line-ending writes spelled exactly as in the source. `lastEmpty` is
`len(lines[len(lines)-1]) == 0`. -/
def rejoinLinesFrom (total : Nat) (lastEmpty : Bool) (ending : Bytes)
    (i : Nat) : List Bytes → Bytes
  | [] => []
  | l :: rest =>
    l ++
      (if i < total - 1 then
        (if i = total - 2 ∧ lastEmpty then ending
         else if i < total - 2 ∨ ¬lastEmpty then ending
         else [])
       else []) ++
      rejoinLinesFrom total lastEmpty ending (i + 1) rest

/-- `rules.FixTrimTrailingWhitespace` (the Go error component is always nil). -/
def fixTrimTrailingWhitespace (_filePath : Bytes) (content : Bytes)
    (cfg : ResolvedConfig) : Bytes × Bool :=
  if cfg.TrimTrailingWhitespace ≠ some true then (content, false)
  else if content = [] then (content, false)
  else
    let lineEnding :=
      if containsSeq content "\r\n".toList then "\r\n".toList
      else if containsSeq content "\r".toList then "\r".toList
      else "\n".toList
    let lines := splitOnChar '\n' content
    let newLines := trimLinesFrom lines.length 0 lines
    if newLines = lines then (content, false)
    else
      (rejoinLinesFrom lines.length ((lines.getLast?.getD []) = []) lineEnding 0
        newLines, true)

/-- `rules.normalizeLineEndings`. -/
def normalizeLineEndings (content targetEnding : Bytes) : Bytes :=
  let normalized := replaceAll content "\r\n".toList "\n".toList
  let normalized := replaceAll normalized "\r".toList "\n".toList
  if targetEnding = "\n".toList then normalized
  else replaceAll normalized "\n".toList targetEnding

/-- `rules.FixEndOfLine` (the Go error component is always nil). -/
def fixEndOfLine (_filePath : Bytes) (content : Bytes)
    (cfg : ResolvedConfig) : Bytes × Bool :=
  if cfg.EndOfLine = [] then (content, false)
  else if content = [] then (content, false)
  else if cfg.EndOfLine = "lf".toList then
    let result := normalizeLineEndings content "\n".toList
    (result, content ≠ result)
  else if cfg.EndOfLine = "crlf".toList then
    let result := normalizeLineEndings content "\r\n".toList
    (result, content ≠ result)
  else if cfg.EndOfLine = "cr".toList then
    let result := normalizeLineEndings content "\r".toList
    (result, content ≠ result)
  else (content, false)

/-- `rules.GetAllFixers`: the fixed fixer order of the source,
`FixInsertFinalNewline`, then `FixTrimTrailingWhitespace`, then
`FixEndOfLine`. -/
def getAllFixers : List (Bytes → Bytes → ResolvedConfig → Bytes × Bool) :=
  [fixInsertFinalNewline, fixTrimTrailingWhitespace, fixEndOfLine]

/-- The fixer-application loop of `validator.fixSingleFile`: each fixer is run
on the current content; when it reports a change the content is replaced and
the modified flag raised. -/
def applyFixers (filePath : Bytes) (cfg : ResolvedConfig)
    (fixers : List (Bytes → Bytes → ResolvedConfig → Bytes × Bool))
    (content : Bytes) (modified : Bool) : Bytes × Bool :=
  match fixers with
  | [] => (content, modified)
  | f :: rest =>
    let r := f filePath content cfg
    if r.2 then applyFixers filePath cfg rest r.1 true
    else applyFixers filePath cfg rest content modified

/-- The content transformation performed by `fixSingleFile` (its config
resolution and file I/O stripped away). -/
def fixContent (filePath : Bytes) (cfg : ResolvedConfig) (content : Bytes) :
    Bytes × Bool :=
  applyFixers filePath cfg getAllFixers content false

/-- Modelled from the spec: the fixer order the specification prescribes
("end-of-line normalization must run before trailing-whitespace trimming and
before final-newline insertion ... final-newline insertion runs last"). This
definition exists only to be compared against `fixContent`, which embeds the
source's actual order. -/
def specOrderFixContent (filePath : Bytes) (cfg : ResolvedConfig)
    (content : Bytes) : Bytes × Bool :=
  applyFixers filePath cfg
    [fixEndOfLine, fixTrimTrailingWhitespace, fixInsertFinalNewline] content false

/-! ## Regular expressions

`config.ConvertPatternToRegex` produces a regex string that is handed to Go's
`regexp.MatchString`. The regexes it can produce use only this syntax: `^` and
`$` anchors at the two ends, literal characters, `\`-escaped literals, `.`,
character classes `[...]` / `[^...]` (with ranges), the postfix `*`
quantifier, and one level of alternation groups `(a|b|...)` coming from brace
expansion. The engine below embeds exactly that fragment: an AST, a matcher by
Brzozowski derivatives, and a syntax recognizer that fails exactly where Go's
compiler rejects the produced string (e.g. an unterminated class). Because the
produced regex is always anchored on both sides, `regexp.MatchString`'s
substring search coincides with a full match of the anchor-free body. -/

/-- One member of a character class: a single character or a range. -/
inductive CItem where
  | single (c : Char)
  | range (lo hi : Char)
deriving DecidableEq, Repr

/-- Does character `c` fall in the class item? -/
def cmatch (c : Char) : CItem → Bool
  | .single d => c = d
  | .range lo hi => decide (lo ≤ c) && decide (c ≤ hi)

/-- Regex AST for the fragment produced by `ConvertPatternToRegex`. -/
inductive RE where
  | emp
  | eps
  | lit (c : Char)
  | any
  | cls (neg : Bool) (items : List CItem)
  | seq (a b : RE)
  | alt (a b : RE)
  | star (a : RE)
deriving DecidableEq, Repr

/-- Class membership, with negation. -/
def clsMatch (neg : Bool) (items : List CItem) (c : Char) : Bool :=
  if neg then !(items.any (cmatch c)) else items.any (cmatch c)

/-- Does the regex accept the empty word? -/
def nullable : RE → Bool
  | .emp => false
  | .eps => true
  | .lit _ => false
  | .any => false
  | .cls _ _ => false
  | .seq a b => nullable a && nullable b
  | .alt a b => nullable a || nullable b
  | .star _ => true

/-- Brzozowski derivative with respect to one character. -/
def derivC : RE → Char → RE
  | .emp, _ => .emp
  | .eps, _ => .emp
  | .lit d, c => if c = d then .eps else .emp
  | .any, _ => .eps
  | .cls n its, c => if clsMatch n its c then .eps else .emp
  | .seq a b, c =>
    if nullable a then .alt (.seq (derivC a c) b) (derivC b c)
    else .seq (derivC a c) b
  | .alt a b, c => .alt (derivC a c) (derivC b c)
  | .star a, c => .seq (derivC a c) (.star a)

/-- Full (anchored) matching by iterated derivatives. -/
def fullMatch (r : RE) (s : Bytes) : Bool := nullable (s.foldl derivC r)

/-- The language of the regex fragment, as an inductive relation. -/
inductive Matches : RE → Bytes → Prop where
  | eps : Matches .eps []
  | lit (c : Char) : Matches (.lit c) [c]
  | any (c : Char) : Matches .any [c]
  | cls {n : Bool} {its : List CItem} {c : Char} :
      clsMatch n its c = true → Matches (.cls n its) [c]
  | seq {a b : RE} {s t : Bytes} :
      Matches a s → Matches b t → Matches (.seq a b) (s ++ t)
  | altL {a b : RE} {s : Bytes} : Matches a s → Matches (.alt a b) s
  | altR {a b : RE} {s : Bytes} : Matches b s → Matches (.alt a b) s
  | starNil {a : RE} : Matches (.star a) []
  | starCons {a : RE} {s t : Bytes} :
      Matches a s → Matches (.star a) t → Matches (.star a) (s ++ t)

/-! ### Recognizing the produced regex syntax

The functions below read a regex string (the output of
`ConvertPatternToRegex` without its anchors) into the AST, failing exactly
where Go's `regexp.Compile` rejects it: an unterminated or empty character
class, a dangling backslash, a quantifier with nothing to repeat (RE2's
"missing argument to repetition operator" / nested repetition), an unbalanced
group. All recursions carry a fuel argument instantiated with the input
length plus one; every recursive step consumes at least one input character,
so the fuel never runs out on the calls the program makes. -/

/-- Characters with a special meaning in the regex syntax (exactly the set Go
`regexp.QuoteMeta` escapes). -/
def regexSpecial (c : Char) : Bool :=
  c = '\\' || c = '.' || c = '+' || c = '*' || c = '?' || c = '(' || c = ')' ||
  c = '|' || c = '[' || c = ']' || c = '{' || c = '}' || c = '^' || c = '$'

/-- One member of a character class body: an escaped or plain character. -/
def parseClassAtom : Bytes → Option (Char × Bytes)
  | '\\' :: c :: rest => some (c, rest)
  | '\\' :: [] => none
  | c :: rest => some (c, rest)
  | [] => none

/-- Class body items up to the closing `]`. `first` is true immediately after
`[` or `[^`, where `]` is a literal member rather than the terminator. -/
def parseClassItems (fuel : Nat) (s : Bytes) (first : Bool) :
    Option (List CItem × Bytes) :=
  match fuel with
  | 0 => none
  | fuel + 1 =>
    match s with
    | [] => none
    | ']' :: rest =>
      if first then
        -- leading `]` is a literal member
        (parseClassItems fuel rest false).map fun (its, r) =>
          (CItem.single ']' :: its, r)
      else some ([], rest)
    | _ =>
      (parseClassAtom s).bind fun (c, rest) =>
        match rest with
        | '-' :: r2 =>
          if r2.head? = some ']' ∨ r2 = [] then
            (parseClassItems fuel rest false).map fun (its, r) =>
              (CItem.single c :: its, r)
          else
            (parseClassAtom r2).bind fun (d, r3) =>
              (parseClassItems fuel r3 false).map fun (its, r) =>
                (CItem.range c d :: its, r)
        | _ =>
          (parseClassItems fuel rest false).map fun (its, r) =>
            (CItem.single c :: its, r)

/-- A whole class after the opening `[`: optional `^`, items, closing `]`. -/
def parseClass (fuel : Nat) (s : Bytes) : Option ((Bool × List CItem) × Bytes) :=
  match s with
  | '^' :: rest =>
    (parseClassItems fuel rest true).map fun (its, r) => ((true, its), r)
  | _ =>
    (parseClassItems fuel s true).map fun (its, r) => ((false, its), r)

/-- One alternative inside a brace-expansion group: a sequence of literal
(plain or escaped) characters, ending at `|` or `)`. -/
def parseGroupSeg (fuel : Nat) (s : Bytes) : Option (RE × Bytes) :=
  match fuel with
  | 0 => none
  | fuel + 1 =>
    match s with
    | [] => none
    | ')' :: _ => some (.eps, s)
    | '|' :: _ => some (.eps, s)
    | '\\' :: c :: rest =>
      (parseGroupSeg fuel rest).map fun (r, rest') => (.seq (.lit c) r, rest')
    | '\\' :: [] => none
    | c :: rest =>
      if regexSpecial c then none
      else (parseGroupSeg fuel rest).map fun (r, rest') =>
        (.seq (.lit c) r, rest')

/-- A group body after the opening `(`: alternatives separated by `|`, up to
the closing `)`. -/
def parseGroup (fuel : Nat) (s : Bytes) : Option (RE × Bytes) :=
  match fuel with
  | 0 => none
  | fuel + 1 =>
    (parseGroupSeg fuel s).bind fun (seg, rest) =>
      match rest with
      | ')' :: r2 => some (seg, r2)
      | '|' :: r2 =>
        (parseGroup fuel r2).map fun (alts, r3) => (.alt seg alts, r3)
      | _ => none

/-- An optional single postfix `*` (a second immediate `*` is rejected by the
caller, as RE2 rejects nested repetition). -/
def takeStar (r : RE) (s : Bytes) : RE × Bytes :=
  match s with
  | '*' :: rest => (.star r, rest)
  | _ => (r, s)

/-- The top-level item list of the regex body. -/
def parseItems (fuel : Nat) (s : Bytes) : Option (List RE) :=
  match fuel with
  | 0 => none
  | fuel + 1 =>
    match s with
    | [] => some []
    | c :: rest =>
      if c = '\\' then
        match rest with
        | c2 :: rest2 =>
          let (r, rest') := takeStar (.lit c2) rest2
          (parseItems fuel rest').map fun items => r :: items
        | [] => none
      else if c = '.' then
        let (r, rest') := takeStar .any rest
        (parseItems fuel rest').map fun items => r :: items
      else if c = '[' then
        (parseClass fuel rest).bind fun ((n, its), r2) =>
          let (r, rest') := takeStar (.cls n its) r2
          (parseItems fuel rest').map fun items => r :: items
      else if c = '(' then
        (parseGroup fuel rest).bind fun (g, r2) =>
          let (r, rest') := takeStar g r2
          (parseItems fuel rest').map fun items => r :: items
      else if regexSpecial c then none
      else
        let (r, rest') := takeStar (.lit c) rest
        (parseItems fuel rest').map fun items => r :: items

/-- Sequence of a list of regexes. -/
def seqList (rs : List RE) : RE := rs.foldr .seq .eps

/-- Read a whole (anchor-free) regex body. -/
def parseRegexBody (body : Bytes) : Option RE :=
  (parseItems (body.length + 1) body).map seqList

/-- Split off the `^`/`$` anchors that `ConvertPatternToRegex` always adds. -/
def stripAnchors (re : Bytes) : Option Bytes :=
  match re with
  | '^' :: rest => if rest.getLast? = some '$' then some rest.dropLast else none
  | _ => none

/-- Go `regexp.MatchString(re, s)`: `none` models a compile error, `some b`
the match outcome. Every regex the program passes here is of the form
`^body$`, for which Go's substring search is a full match of `body`. -/
def goRegexMatch (re : Bytes) (s : Bytes) : Option Bool :=
  match (stripAnchors re).bind parseRegexBody with
  | none => none
  | some r => some (fullMatch r s)

/-- Does the regex string compile? (Independent of any subject string.) -/
def regexCompiles (re : Bytes) : Bool :=
  ((stripAnchors re).bind parseRegexBody).isSome

/-! ### `ConvertPatternToRegex` -/

/-- Go `regexp.QuoteMeta`: a backslash before every special character. -/
def quoteMeta (s : Bytes) : Bytes :=
  s.flatMap fun c => if regexSpecial c then ['\\', c] else [c]

/-- Go `strings.Split(s, ",")` is `splitOnChar ','`; the brace-expansion
callback joins the quoted parts with `|`. -/
def braceAlternation (content : Bytes) : Bytes :=
  '(' :: joinWith "|".toList ((splitOnChar ',' content).map quoteMeta) ++ [')']

/-- The replacement made by the Go regexp `\\{([^}]+)\\}` at one candidate
position: the submatch `[^}]+` cannot cross a `}`, so a match starting at a
`\{` runs to the first following `}`, which must be preceded by `\` and by a
nonempty content. Returns the content and the rest after the match, if any. -/
def braceSplit (s : Bytes) : Option (Bytes × Bytes) :=
  match s.findIdx? (· = '}') with
  | none => none
  | some j =>
    if 2 ≤ j ∧ s.get? (j - 1) = some '\\' then
      some (s.take (j - 1), s.drop (j + 1))
    else none

/-- `regexp.ReplaceAllStringFunc` over the brace pattern: scan left to right,
replacing every (non-overlapping) match. -/
def braceFix (fuel : Nat) (s : Bytes) : Bytes :=
  match fuel with
  | 0 => s
  | fuel + 1 =>
    match s with
    | [] => []
    | '\\' :: '{' :: rest =>
      match braceSplit rest with
      | some (content, rest') => braceAlternation content ++ braceFix fuel rest'
      | none => '\\' :: braceFix fuel ('{' :: rest)
    | c :: rest => c :: braceFix fuel rest

/-- `config.ConvertPatternToRegex`. The Go function's `error` result is the
literal nil in every return; compile failures of the produced string surface
later, at `regexp.MatchString`. -/
def convertPatternToRegex (pattern : Bytes) : Bytes :=
  let p := quoteMeta pattern
  let p := replaceAll p "\\*\\*".toList ".*".toList
  let p :=
    if p = "\\*".toList then ".*".toList
    else replaceAll p "\\*".toList "[^/]*".toList
  let p := replaceAll p "\\?".toList ".".toList
  let p := replaceAll p "\\[!".toList "[^".toList
  let p := replaceAll p "\\[".toList "[".toList
  let p := replaceAll p "\\]".toList "]".toList
  let p := braceFix (p.length + 1) p
  '^' :: p ++ ['$']

/-! ## Configuration model

`config.Section.Properties` is a Go `map[string]string`; a map cannot hold
duplicate keys and the parser's `Properties[key] = value` keeps the last
duplicate written in the file. It is modelled as an association list in that
final state. `applyProperties` iterates the map in Go's unspecified order; the
model folds over the list, which is faithful because the eight recognized
keys are pairwise distinct and each writes a distinct field of
`ResolvedConfig`, so the iteration order cannot affect the result. -/

/-- `config.Section`. -/
structure Section where
  Pattern : Bytes
  Properties : List (Bytes × Bytes)
deriving DecidableEq, Repr

/-- `config.EditorConfig`. -/
structure EditorConfig where
  Root : Bool
  Sections : List Section
  FilePath : Bytes
deriving DecidableEq, Repr

/-- Go `strconv.Atoi` on an ASCII-digit string: optional sign, at least one
digit. (The int64 overflow bound is not modelled; the sizes involved are
small.) -/
def digitsVal : Bytes → Option Nat
  | [] => none
  | s =>
    if s.all (fun c => c.isDigit) then
      some (s.foldl (fun a c => a * 10 + (c.toNat - 48)) 0)
    else none

/-- Go `strconv.Atoi`. -/
def atoiGo : Bytes → Option Int
  | '+' :: rest => (digitsVal rest).map Int.ofNat
  | '-' :: rest => (digitsVal rest).map fun n => -(Int.ofNat n)
  | s => (digitsVal s).map Int.ofNat

/-- Go `strconv.ParseBool`. -/
def parseBoolGo (s : Bytes) : Option Bool :=
  if s ∈ ["1".toList, "t".toList, "T".toList, "TRUE".toList, "true".toList,
      "True".toList] then some true
  else if s ∈ ["0".toList, "f".toList, "F".toList, "FALSE".toList,
      "false".toList, "False".toList] then some false
  else none

/-- The `indent_style` case of `applyProperties`. -/
def applyIndentStyle (r : ResolvedConfig) (v : Bytes) : ResolvedConfig :=
  if v = "tab".toList ∨ v = "space".toList then { r with IndentStyle := v }
  else r

/-- The `indent_size` case of `applyProperties`: `tab` clears the field;
`err == nil && size > 0` is rendered as `0 < (atoiGo v).getD 0`. -/
def applyIndentSize (r : ResolvedConfig) (v : Bytes) : ResolvedConfig :=
  if v = "tab".toList then { r with IndentSize := none }
  else if 0 < (atoiGo v).getD 0 then { r with IndentSize := atoiGo v }
  else r

/-- The `tab_width` case of `applyProperties`. -/
def applyTabWidth (r : ResolvedConfig) (v : Bytes) : ResolvedConfig :=
  if 0 < (atoiGo v).getD 0 then { r with TabWidth := atoiGo v } else r

/-- The `end_of_line` case of `applyProperties`. -/
def applyEndOfLine (r : ResolvedConfig) (v : Bytes) : ResolvedConfig :=
  if v = "lf".toList ∨ v = "crlf".toList ∨ v = "cr".toList then
    { r with EndOfLine := v }
  else r

/-- The `trim_trailing_whitespace` case of `applyProperties`. -/
def applyTrimTW (r : ResolvedConfig) (v : Bytes) : ResolvedConfig :=
  if (parseBoolGo v).isSome then
    { r with TrimTrailingWhitespace := parseBoolGo v }
  else r

/-- The `insert_final_newline` case of `applyProperties`. -/
def applyInsertFN (r : ResolvedConfig) (v : Bytes) : ResolvedConfig :=
  if (parseBoolGo v).isSome then
    { r with InsertFinalNewline := parseBoolGo v }
  else r

/-- The `max_line_length` case of `applyProperties`: `off` clears the field. -/
def applyMaxLineLength (r : ResolvedConfig) (v : Bytes) : ResolvedConfig :=
  if v = "off".toList then { r with MaxLineLength := none }
  else if 0 < (atoiGo v).getD 0 then { r with MaxLineLength := atoiGo v }
  else r

/-- One `key = value` step of `config.applyProperties` (the switch body). -/
def applyProp (r : ResolvedConfig) (kv : Bytes × Bytes) : ResolvedConfig :=
  if kv.1 = "indent_style".toList then applyIndentStyle r kv.2
  else if kv.1 = "indent_size".toList then applyIndentSize r kv.2
  else if kv.1 = "tab_width".toList then applyTabWidth r kv.2
  else if kv.1 = "end_of_line".toList then applyEndOfLine r kv.2
  else if kv.1 = "charset".toList then { r with Charset := kv.2 }
  else if kv.1 = "trim_trailing_whitespace".toList then applyTrimTW r kv.2
  else if kv.1 = "insert_final_newline".toList then applyInsertFN r kv.2
  else if kv.1 = "max_line_length".toList then applyMaxLineLength r kv.2
  else r

/-- `config.applyProperties`. -/
def applyProperties (r : ResolvedConfig) (props : List (Bytes × Bytes)) :
    ResolvedConfig :=
  props.foldl applyProp r

/-! ### Path helpers

`filepath.ToSlash` is the identity here: paths are modelled already
slash-separated. `filepath.Dir` and `filepath.Rel` are modelled lexically for
slash-separated paths (no `.`/`..` cleaning, which the program's inputs never
need). -/

/-- `filepath.Dir` for slash-separated paths. -/
def goDir (p : Bytes) : Bytes :=
  let segs := splitOnChar '/' p
  match segs with
  | [] => ".".toList
  | [_] => ".".toList
  | _ =>
    let front := joinWith "/".toList (segs.dropLast)
    if front = [] then "/".toList else front

/-- Drop the longest common segment prefix. -/
def dropCommon : List Bytes → List Bytes → List Bytes × List Bytes
  | b :: bs, t :: ts =>
    if b = t then dropCommon bs ts else (b :: bs, t :: ts)
  | bs, ts => (bs, ts)

/-- `filepath.Rel(base, target)`, lexically: fails when one path is absolute
and the other is not. -/
def goRel (base targ : Bytes) : Except Bytes Bytes :=
  if (base.head? = some '/') ≠ (targ.head? = some '/') then
    .error "Rel: can't make relative".toList
  else if base = targ then .ok ".".toList
  else
    let (bs, ts) := dropCommon (splitOnChar '/' base) (splitOnChar '/' targ)
    let segs := bs.map (fun _ => "..".toList) ++ ts
    if segs = [] then .ok ".".toList
    else .ok (joinWith "/".toList segs)

/-- `config.matchesPattern`: relativize the file path to the configuration
file's directory, convert the pattern, and run the regex; an error of either
step propagates. -/
def matchesPattern (filePath pattern configPath : Bytes) :
    Except Bytes Bool :=
  match goRel (goDir configPath) filePath with
  | .error e => .error e
  | .ok relPath =>
    match goRegexMatch (convertPatternToRegex pattern) relPath with
    | none => .error "error parsing regexp".toList
    | some b => .ok b

/-- The section loop of `config.ResolveConfigForFile` for one document. -/
def applySectionsE (filePath cfgPath : Bytes) (r : ResolvedConfig) :
    List Section → Except Bytes ResolvedConfig
  | [] => .ok r
  | sec :: rest =>
    match matchesPattern filePath sec.Pattern cfgPath with
    | .error e => .error e
    | .ok true =>
      applySectionsE filePath cfgPath (applyProperties r sec.Properties) rest
    | .ok false => applySectionsE filePath cfgPath r rest

/-- The document loop of `config.ResolveConfigForFile`. -/
def resolveFromE (filePath : Bytes) (r : ResolvedConfig) :
    List EditorConfig → Except Bytes ResolvedConfig
  | [] => .ok r
  | cfg :: rest =>
    match applySectionsE filePath cfg.FilePath r cfg.Sections with
    | .error e => .error e
    | .ok r' => resolveFromE filePath r' rest

/-- `config.ResolveConfigForFile`. -/
def resolveConfigForFile (filePath : Bytes) (configs : List EditorConfig) :
    Except Bytes ResolvedConfig :=
  resolveFromE filePath {} configs

/-- The `key = value` pairs of the sections that match the file, in document
order and section order (the data `ResolveConfigForFile` folds over). -/
def collectSectionsE (filePath cfgPath : Bytes) :
    List Section → Except Bytes (List (Bytes × Bytes))
  | [] => .ok []
  | sec :: rest =>
    match matchesPattern filePath sec.Pattern cfgPath with
    | .error e => .error e
    | .ok true =>
      match collectSectionsE filePath cfgPath rest with
      | .error e => .error e
      | .ok kvs => .ok (sec.Properties ++ kvs)
    | .ok false => collectSectionsE filePath cfgPath rest

/-- All matching `key = value` pairs across the ordered document list. -/
def collectMatchedProps (filePath : Bytes) :
    List EditorConfig → Except Bytes (List (Bytes × Bytes))
  | [] => .ok []
  | cfg :: rest =>
    match collectSectionsE filePath cfg.FilePath cfg.Sections with
    | .error e => .error e
    | .ok kvs =>
      match collectMatchedProps filePath rest with
      | .error e => .error e
      | .ok kvs' => .ok (kvs ++ kvs')

/-! ### A field-level view of the cascade -/

/-- The eight recognized properties / `ResolvedConfig` fields. -/
inductive FieldName where
  | indentStyle | indentSize | tabWidth | endOfLine
  | charset | trimTW | insertFN | maxLineLength
deriving DecidableEq, Repr

/-- A field value (string fields or optional fields). -/
inductive FieldVal where
  | str (v : Bytes)
  | oint (v : Option Int)
  | obool (v : Option Bool)
deriving DecidableEq, Repr

/-- Project one field out of a `ResolvedConfig`. -/
def readField (r : ResolvedConfig) : FieldName → FieldVal
  | .indentStyle => .str r.IndentStyle
  | .indentSize => .oint r.IndentSize
  | .tabWidth => .oint r.TabWidth
  | .endOfLine => .str r.EndOfLine
  | .charset => .str r.Charset
  | .trimTW => .obool r.TrimTrailingWhitespace
  | .insertFN => .obool r.InsertFinalNewline
  | .maxLineLength => .oint r.MaxLineLength

/-- The value a `key = value` pair writes to a given field, if any: exactly
the accepting branches of `applyProperties`. -/
def writeOf (f : FieldName) (kv : Bytes × Bytes) : Option FieldVal :=
  match f with
  | .indentStyle =>
    if kv.1 = "indent_style".toList ∧
        (kv.2 = "tab".toList ∨ kv.2 = "space".toList) then some (.str kv.2)
    else none
  | .indentSize =>
    if kv.1 = "indent_size".toList then
      if kv.2 = "tab".toList then some (.oint none)
      else if 0 < (atoiGo kv.2).getD 0 then some (.oint (atoiGo kv.2))
      else none
    else none
  | .tabWidth =>
    if kv.1 = "tab_width".toList then
      if 0 < (atoiGo kv.2).getD 0 then some (.oint (atoiGo kv.2)) else none
    else none
  | .endOfLine =>
    if kv.1 = "end_of_line".toList ∧
        (kv.2 = "lf".toList ∨ kv.2 = "crlf".toList ∨ kv.2 = "cr".toList) then
      some (.str kv.2)
    else none
  | .charset =>
    if kv.1 = "charset".toList then some (.str kv.2) else none
  | .trimTW =>
    if kv.1 = "trim_trailing_whitespace".toList then
      if (parseBoolGo kv.2).isSome then some (.obool (parseBoolGo kv.2))
      else none
    else none
  | .insertFN =>
    if kv.1 = "insert_final_newline".toList then
      if (parseBoolGo kv.2).isSome then some (.obool (parseBoolGo kv.2))
      else none
    else none
  | .maxLineLength =>
    if kv.1 = "max_line_length".toList then
      if kv.2 = "off".toList then some (.oint none)
      else if 0 < (atoiGo kv.2).getD 0 then some (.oint (atoiGo kv.2))
      else none
    else none

/-- The last write to a field in an ordered list of `key = value` pairs
(later entries override earlier ones). -/
def lastWrite (f : FieldName) : List (Bytes × Bytes) → Option FieldVal
  | [] => none
  | kv :: rest =>
    match lastWrite f rest with
    | some v => some v
    | none => writeOf f kv

/-! ## Exclusion patterns and the parallel fix pipeline -/

/-- The suffix paths `validator.shouldIgnore` also checks: the path with `i`
leading segments dropped, for every `i` (index 0 re-checks the full path). -/
def pathSuffixes (path : Bytes) : List Bytes :=
  let parts := splitOnChar '/' path
  (List.range parts.length).map fun i => joinWith "/".toList (parts.drop i)

/-- `validator.shouldIgnore`. `ConvertPatternToRegex` never returns an error,
so the `continue`-on-error branch is dead; a pattern whose produced regex does
not compile fails both `MatchString` calls (`err == nil && matched` is false)
and so never matches. `filepath.ToSlash` is the identity here. -/
def shouldIgnore (excludePatterns : List Bytes) (filePath : Bytes) : Bool :=
  excludePatterns.any fun pat =>
    let re := convertPatternToRegex pat
    (goRegexMatch re filePath == some true) ||
      (pathSuffixes filePath).any fun rel => goRegexMatch re rel == some true

/-- One worker iteration of `validator.fixFilesParallel`, per job: an error
from `fixSingleFile` sends nothing to the result channel (`continue`); a fix
sends the path; no fix sends the empty-string sentinel. The channel delivers
these in a nondeterministic order; the model lists them in job order, which
fixes one representative of the result multiset. -/
def workerResults (jobs : List (Bytes × Except Unit Bool)) : List Bytes :=
  jobs.filterMap fun pj =>
    match pj.2 with
    | .error _ => none
    | .ok true => some pj.1
    | .ok false => some []

/-- The aggregate of `validator.fixFilesParallel`: the collector keeps the
non-sentinel results as the fixed-file list, and the total is the number of
collected files; the function's own error result is nil on this path. -/
def fixFilesParallelModel (jobs : List (Bytes × Except Unit Bool)) :
    List Bytes × Nat :=
  ((workerResults jobs).filter (· ≠ []), jobs.length)

/-! ## Line-structure view (for the end-of-line round-trip) -/

/-- The line segments of a byte string: the pieces between line terminators,
recognizing `\r\n` (as one terminator), bare `\r`, and `\n`; the piece
after the last terminator is included (empty for a terminated file). -/
def segs : Bytes → List Bytes
  | [] => [[]]
  | ['\r'] => [[], []]
  | '\r' :: '\n' :: rest => [] :: segs rest
  | '\r' :: c :: rest => [] :: segs (c :: rest)
  | '\n' :: rest => [] :: segs rest
  | c :: rest =>
    match segs rest with
    | [] => [[c]]
    | l :: ls => (c :: l) :: ls

/-- Single-pass line-ending normalization to LF (`\r\n` and bare `\r`
both become `\n`); proved below to agree with `normalizeLineEndings`'s two
`ReplaceAll` passes. -/
def norm1 : Bytes → Bytes
  | [] => []
  | ['\r'] => ['\n']
  | '\r' :: '\n' :: rest => '\n' :: norm1 rest
  | '\r' :: c :: rest => '\n' :: norm1 (c :: rest)
  | c :: rest => c :: norm1 rest

/-- The literal regexes of a string's characters. -/
def litsRE (u : Bytes) : List RE := u.map RE.lit

/-- A glob-literal context: no glob metacharacter (`*`, `?`, `[`, `]`, `{`,
`}`) and no backslash, so every character stands for itself in the pattern.
Regex-only specials such as `.`, `+`, `(`, `|`, `^`, `$` are allowed: they are
escaped by `QuoteMeta` and read back as literals. -/
def globLit (s : Bytes) : Bool :=
  s.all fun c => !(c = '\\' || c = '*' || c = '?' || c = '[' ||
    c = ']' || c = '{' || c = '}')

/-- Does a line (an LF-split segment) end in a space or tab? This is the
per-line condition of `ValidateTrimTrailingWhitespace`. -/
def hasTrailingWS (l : Bytes) : Bool :=
  decide (l ≠ []) && (l.getLast?.map isWhitespaceB == some true)

/-- The line ending `FixTrimTrailingWhitespace` preserves: CRLF if the
content contains one, else CR if present, else LF. -/
def dominantLineEnding (content : Bytes) : Bytes :=
  if containsSeq content "\r\n".toList then "\r\n".toList
  else if containsSeq content "\r".toList then "\r".toList
  else "\n".toList

/-! ## Theorems -/

theorem seq_inv {a b : RE} {w : Bytes} (h : Matches (.seq a b) w) :
    ∃ s t, w = s ++ t ∧ Matches a s ∧ Matches b t := by
  cases h with
  | seq hs ht => exact ⟨_, _, rfl, hs, ht⟩

theorem alt_inv {a b : RE} {w : Bytes} (h : Matches (.alt a b) w) :
    Matches a w ∨ Matches b w := by
  cases h with
  | altL h => exact Or.inl h
  | altR h => exact Or.inr h

theorem lit_inv {d : Char} {w : Bytes} (h : Matches (.lit d) w) : w = [d] := by
  cases h; rfl

theorem any_inv {w : Bytes} (h : Matches .any w) : ∃ c, w = [c] := by
  cases h; exact ⟨_, rfl⟩

theorem cls_inv {n : Bool} {its : List CItem} {w : Bytes}
    (h : Matches (.cls n its) w) : ∃ c, w = [c] ∧ clsMatch n its c = true := by
  cases h with
  | cls hm => exact ⟨_, rfl, hm⟩

theorem eps_inv {w : Bytes} (h : Matches .eps w) : w = [] := by
  cases h; rfl

theorem emp_inv {w : Bytes} (h : Matches .emp w) : False := by
  cases h

theorem nullable_iff (r : RE) : nullable r = true ↔ Matches r [] := by
  induction r with
  | emp => exact iff_of_false (by simp [nullable]) emp_inv
  | eps => simp only [nullable, true_iff]; exact .eps
  | lit c =>
    exact iff_of_false (by simp [nullable]) (fun h => by cases lit_inv h)
  | any =>
    exact iff_of_false (by simp [nullable])
      (fun h => by rcases any_inv h with ⟨c, hc⟩; cases hc)
  | cls n its =>
    exact iff_of_false (by simp [nullable])
      (fun h => by rcases cls_inv h with ⟨c, hc, -⟩; cases hc)
  | seq a b iha ihb =>
    simp only [nullable, Bool.and_eq_true, iha, ihb]
    constructor
    · rintro ⟨ha, hb⟩
      have := Matches.seq ha hb
      simpa using this
    · intro h
      rcases seq_inv h with ⟨s, t, hst, hs, ht⟩
      rcases List.append_eq_nil.mp hst.symm with ⟨rfl, rfl⟩
      exact ⟨hs, ht⟩
  | alt a b iha ihb =>
    simp only [nullable, Bool.or_eq_true, iha, ihb]
    constructor
    · rintro (h | h); exacts [.altL h, .altR h]
    · exact alt_inv
  | star a _ =>
    simp only [nullable, true_iff]
    exact .starNil

/-- Inversion of star: a star match is empty or splits off a nonempty chunk. -/
theorem star_inv {a : RE} {w : Bytes} (h : Matches (.star a) w) :
    w = [] ∨ ∃ u v, w = u ++ v ∧ u ≠ [] ∧ Matches a u ∧ Matches (.star a) v := by
  generalize hr : RE.star a = r at h
  induction h with
  | eps => cases hr
  | lit c => cases hr
  | any c => cases hr
  | cls _ => cases hr
  | seq _ _ _ _ => cases hr
  | altL _ _ => cases hr
  | altR _ _ => cases hr
  | starNil => exact Or.inl rfl
  | @starCons a' s t hu hv ihu ihv =>
    injection hr with ha
    subst ha
    by_cases hs : s = []
    · subst hs; simpa using ihv rfl
    · exact Or.inr ⟨s, t, rfl, hs, hu, hv⟩

theorem deriv_sound {r : RE} {c : Char} {s : Bytes}
    (h : Matches (derivC r c) s) : Matches r (c :: s) := by
  induction r generalizing s with
  | emp => exact absurd h emp_inv
  | eps => exact absurd h emp_inv
  | lit d =>
    simp only [derivC] at h
    by_cases hc : c = d
    · rw [if_pos hc] at h
      rw [eps_inv h, hc]
      exact .lit d
    · rw [if_neg hc] at h; exact absurd h emp_inv
  | any =>
    simp only [derivC] at h
    rw [eps_inv h]
    exact .any c
  | cls n its =>
    simp only [derivC] at h
    by_cases hc : clsMatch n its c = true
    · rw [if_pos hc] at h
      rw [eps_inv h]
      exact .cls hc
    · rw [if_neg hc] at h; exact absurd h emp_inv
  | seq a b iha ihb =>
    simp only [derivC] at h
    by_cases hn : nullable a = true
    · rw [if_pos hn] at h
      rcases alt_inv h with h | h
      · rcases seq_inv h with ⟨u, v, rfl, hu, hv⟩
        have := Matches.seq (iha hu) hv
        simpa using this
      · have ha0 : Matches a [] := (nullable_iff a).mp hn
        have := Matches.seq ha0 (ihb h)
        simpa using this
    · rw [if_neg hn] at h
      rcases seq_inv h with ⟨u, v, rfl, hu, hv⟩
      have := Matches.seq (iha hu) hv
      simpa using this
  | alt a b iha ihb =>
    simp only [derivC] at h
    rcases alt_inv h with h | h
    · exact .altL (iha h)
    · exact .altR (ihb h)
  | star a iha =>
    simp only [derivC] at h
    rcases seq_inv h with ⟨u, v, rfl, hu, hv⟩
    have := Matches.starCons (iha hu) hv
    simpa using this

theorem deriv_complete {r : RE} {c : Char} {s : Bytes}
    (h : Matches r (c :: s)) : Matches (derivC r c) s := by
  induction r generalizing s with
  | emp => exact absurd h emp_inv
  | eps => cases eps_inv h
  | lit d =>
    have hw := lit_inv h
    have hc : c = d := (List.cons.injEq .. ▸ hw).1
    have hs : s = [] := (List.cons.injEq .. ▸ hw).2
    subst hc; subst hs
    simp only [derivC, if_pos rfl]
    exact .eps
  | any =>
    rcases any_inv h with ⟨d, hw⟩
    have hs : s = [] := (List.cons.injEq .. ▸ hw).2
    subst hs
    simp only [derivC]
    exact .eps
  | cls n its =>
    rcases cls_inv h with ⟨d, hw, hm⟩
    have hc : c = d := (List.cons.injEq .. ▸ hw).1
    have hs : s = [] := (List.cons.injEq .. ▸ hw).2
    subst hc; subst hs
    simp only [derivC, if_pos hm]
    exact .eps
  | seq a b iha ihb =>
    rcases seq_inv h with ⟨u, v, huv, hu, hv⟩
    rcases List.cons_eq_append_iff.mp huv with ⟨rfl, rfl⟩ | ⟨u', rfl, rfl⟩
    · have hn : nullable a = true := (nullable_iff a).mpr hu
      simp only [derivC, if_pos hn]
      exact .altR (ihb hv)
    · have hd : Matches (.seq (derivC a c) b) (u' ++ v) :=
        Matches.seq (iha hu) hv
      by_cases hn : nullable a = true
      · simp only [derivC, if_pos hn]
        exact .altL hd
      · simp only [derivC, if_neg hn]
        exact hd
  | alt a b iha ihb =>
    rcases alt_inv h with h | h
    · simp only [derivC]; exact .altL (iha h)
    · simp only [derivC]; exact .altR (ihb h)
  | star a iha =>
    rcases star_inv h with hnil | ⟨u, v, huv, hne, hu, hv⟩
    · cases hnil
    · match u, hne, hu, huv with
      | u0 :: u', _, hu, huv =>
        have hc : u0 = c := ((List.cons.injEq .. ▸ huv).1).symm
        have hs : s = u' ++ v := (List.cons.injEq .. ▸ huv).2
        subst hc; subst hs
        simp only [derivC]
        exact Matches.seq (iha hu) hv

theorem fullMatch_iff (r : RE) (s : Bytes) :
    fullMatch r s = true ↔ Matches r s := by
  induction s generalizing r with
  | nil => exact nullable_iff r
  | cons c t ih =>
    simp only [fullMatch, List.foldl_cons]
    constructor
    · intro h; exact deriv_sound ((ih (derivC r c)).mp h)
    · intro h; exact (ih (derivC r c)).mpr (deriv_complete h)


/-- C1. The claim states the fix pipeline applies end-of-line normalization
first, then trailing-whitespace trimming, then final-newline insertion last.
`GetAllFixers` returns the fixers in the opposite order
(`FixInsertFinalNewline`, `FixTrimTrailingWhitespace`, `FixEndOfLine`), which
contradicts the repository's own README ("Fixes are applied in logical order
(line endings first, final newline last)"). At content `"a\t\r"` with
`trim_trailing_whitespace = true` and `insert_final_newline = true` the
pipeline produces `"a\n"`, while the claimed order would produce `"a\t\n"`:
the trailing tab survives the claimed order because trimming never fires on a
line ending in a CR byte. -/
theorem c1_fixer_order_bug :
    fixContent "f".toList
        { TrimTrailingWhitespace := some true, InsertFinalNewline := some true }
        "a\t\r".toList = ("a\n".toList, true) ∧
    specOrderFixContent "f".toList
        { TrimTrailingWhitespace := some true, InsertFinalNewline := some true }
        "a\t\r".toList = ("a\t\n".toList, true) := by
  constructor <;> rfl

/-- C4. The claim states the fix pipeline is idempotent. It is not: with
`trim_trailing_whitespace = true` and `end_of_line = lf`, content
`"a \r\n"` is first fixed to `"a \n"` (trimming skips the line because,
split on `\n`, it still ends in the CR byte; end-of-line normalization then
runs last), and a second pass fixes that output again, to `"a\n"` — the
second pass reports a change and yields different content. -/
theorem c4_idempotence_bug :
    fixContent "f".toList
        { EndOfLine := "lf".toList, TrimTrailingWhitespace := some true }
        "a \r\n".toList = ("a \n".toList, true) ∧
    fixContent "f".toList
        { EndOfLine := "lf".toList, TrimTrailingWhitespace := some true }
        "a \n".toList = ("a\n".toList, true) := by
  constructor <;> rfl

/-- C7 counterexample. The claim states `indent_size = tab` puts the
indent-size field into a distinct "use tab width" state that is not equal to
the field being unset. In the code the assignment is `config.IndentSize =
nil`, the very value of a never-assigned field: applying
`indent_size = 12` and then `indent_size = tab` returns the configuration to
exactly the zero (all-unset) value. -/
theorem c7_counterexample :
    applyProperties
        (applyProperties {} [("indent_size".toList, "12".toList)])
        [("indent_size".toList, "tab".toList)] = ({} : ResolvedConfig) := by
  rfl

/-- C7, amended: `indent_size = tab` clears any previously resolved numeric
indent size by resetting the field to nil — the same value as "unset"; the
code has no distinct "use tab width" state. -/
theorem c7_amended (r : ResolvedConfig) :
    applyProp r ("indent_size".toList, "tab".toList) =
      { r with IndentSize := none } := by
  rfl

/-- C9 counterexample. The claim states a fixer error on one file is
converted into that file's own failure record in the aggregate result. It is
not: the worker's `continue` drops the file silently, so a batch where file
`a` fails is indistinguishable in the aggregate from one where `a` simply
needed no fix — there is no failure record. -/
theorem c9_counterexample :
    fixFilesParallelModel
        [("a".toList, Except.error ()), ("b".toList, Except.ok true)] =
      ([("b".toList)], 2) ∧
    fixFilesParallelModel
        [("a".toList, Except.ok false), ("b".toList, Except.ok true)] =
      ([("b".toList)], 2) := by
  constructor <;> rfl

/-- C9, amended: a fixer error on one file causes that file to be dropped
silently from the aggregate (no failure record; it still counts toward the
total), and every other file's result is unaffected by the failure. -/
theorem c9_amended (pre post : List (Bytes × Except Unit Bool)) (p : Bytes) :
    fixFilesParallelModel (pre ++ (p, Except.error ()) :: post) =
      ((fixFilesParallelModel pre).1 ++ (fixFilesParallelModel post).1,
        pre.length + post.length + 1) := by
  unfold fixFilesParallelModel workerResults
  simp only [List.filterMap_append, List.filterMap_cons, List.filter_append,
    List.length_append, List.length_cons]
  refine Prod.ext ?_ ?_
  · simp
  · simp; omega

theorem getLast?_append_two (xs : Bytes) (a b : Char) :
    (xs ++ [a, b]).getLast? = some b := by
  rw [show xs ++ [a, b] = (xs ++ [a]) ++ [b] by simp]
  exact List.getLast?_concat _

theorem get?_append_two (xs : Bytes) (a b : Char) :
    (xs ++ [a, b]).get? ((xs ++ [a, b]).length - 2) = some a := by
  have h1 : (xs ++ [a, b]).length - 2 = xs.length := by simp
  rw [h1]
  rw [List.get?_eq_getElem?, List.getElem?_append_right (by omega)]
  simp

theorem take_append_two (xs : Bytes) (a b : Char) :
    (xs ++ [a, b]).take ((xs ++ [a, b]).length - 2) = xs := by
  have h1 : (xs ++ [a, b]).length - 2 = xs.length := by simp
  rw [h1, List.take_left]

theorem take_append_one (xs : Bytes) (a : Char) :
    (xs ++ [a]).take ((xs ++ [a]).length - 1) = xs := by
  have h1 : (xs ++ [a]).length - 1 = xs.length := by simp
  rw [h1, List.take_left]

/-- C10. With `insert_final_newline` resolved to true and `end_of_line`
unset, both the final-newline validator and fixer default the expected
terminator to LF: every nonempty file ending in CRLF or in a bare CR is a
violation, and the fixer replaces that trailing terminator with a single
LF. -/
theorem c10_final_newline_default_lf (cfg : ResolvedConfig) (fp : Bytes)
    (hIns : cfg.InsertFinalNewline = some true) (hEol : cfg.EndOfLine = []) :
    (∀ xs : Bytes,
      validateInsertFinalNewline fp (xs ++ "\r\n".toList) cfg ≠ none ∧
      fixInsertFinalNewline fp (xs ++ "\r\n".toList) cfg =
        (xs ++ "\n".toList, true)) ∧
    (∀ xs : Bytes,
      validateInsertFinalNewline fp (xs ++ "\r".toList) cfg ≠ none ∧
      fixInsertFinalNewline fp (xs ++ "\r".toList) cfg =
        (xs ++ "\n".toList, true)) := by
  constructor
  · intro xs
    have hne : xs ++ "\r\n".toList ≠ [] := by simp
    have hlast : (xs ++ "\r\n".toList).getLast? = some '\n' :=
      getLast?_append_two xs '\r' '\n'
    have hget : (xs ++ "\r\n".toList).get?
        ((xs ++ "\r\n".toList).length - 2) = some '\r' :=
      get?_append_two xs '\r' '\n'
    have hlen : 2 ≤ (xs ++ "\r\n".toList).length := by simp
    have htake := take_append_two xs '\r' '\n'
    constructor
    · simp only [validateInsertFinalNewline, hIns, hEol, hne, hlast, hget,
        hlen, htake, if_pos, if_neg, ne_eq, not_true_eq_false, if_false,
        Option.getD_some]
      simp
    · simp only [fixInsertFinalNewline, hIns, hEol, hne, hlast, hget, hlen,
        htake, ne_eq, not_true_eq_false, if_false, Option.getD_some]
      simp
  · intro xs
    have hne : xs ++ "\r".toList ≠ [] := by simp
    have hlast : (xs ++ "\r".toList).getLast? = some '\r' :=
      List.getLast?_concat xs
    have htake := take_append_one xs '\r'
    constructor
    · simp only [validateInsertFinalNewline, hIns, hEol, hne, hlast, htake,
        ne_eq, not_true_eq_false, if_false, Option.getD_some]
      simp
    · simp only [fixInsertFinalNewline, hIns, hEol, hne, hlast, htake,
        ne_eq, not_true_eq_false, if_false, Option.getD_some]
      simp

/-- C10 witness: a concrete run of the theorem at `xs = "a"`. -/
theorem c10_witness :
    validateInsertFinalNewline "f".toList "a\r\n".toList
        { InsertFinalNewline := some true } ≠ none ∧
    fixInsertFinalNewline "f".toList "a\r".toList
        { InsertFinalNewline := some true } = ("a\n".toList, true) := by
  constructor
  · exact ((c10_final_newline_default_lf { InsertFinalNewline := some true }
      "f".toList rfl rfl).1 "a".toList).1
  · exact ((c10_final_newline_default_lf { InsertFinalNewline := some true }
      "f".toList rfl rfl).2 "a".toList).2

theorem replaceAllF_nil (f : Nat) (pat rep : Bytes) :
    replaceAllF f [] pat rep = [] := by
  cases f <;> rfl

theorem replaceAllF_irrel (pat rep : Bytes) (hp : pat ≠ []) :
    ∀ f₁ f₂ s, s.length ≤ f₁ → s.length ≤ f₂ →
      replaceAllF f₁ s pat rep = replaceAllF f₂ s pat rep := by
  intro f₁
  induction f₁ with
  | zero =>
    intro f₂ s h1 _
    have hs : s = [] := List.eq_nil_of_length_eq_zero (by omega)
    subst hs
    rw [replaceAllF_nil, replaceAllF_nil]
  | succ f ih =>
    intro f₂ s h1 h2
    match s with
    | [] => rw [replaceAllF_nil, replaceAllF_nil]
    | c :: t =>
      obtain ⟨f₂', rfl⟩ : ∃ f₂', f₂ = f₂' + 1 :=
        ⟨f₂ - 1, by simp at h2; omega⟩
      have hpl : 1 ≤ pat.length := List.length_pos.mpr hp
      simp only [replaceAllF]
      by_cases hpre : pat.isPrefixOf (c :: t)
      · rw [if_pos hpre, if_pos hpre]
        congr 1
        apply ih
        · simp only [List.length_drop, List.length_cons]
          simp only [List.length_cons] at h1
          omega
        · simp only [List.length_drop, List.length_cons]
          simp only [List.length_cons] at h2
          omega
      · rw [if_neg hpre, if_neg hpre]
        congr 1
        apply ih
        · simp only [List.length_cons] at h1; omega
        · simp only [List.length_cons] at h2; omega

theorem replaceAll_nil (pat rep : Bytes) : replaceAll [] pat rep = [] := by
  unfold replaceAll
  split
  · rfl
  · rfl

theorem replaceAll_pos (c : Char) (t pat rep : Bytes) (hp : pat ≠ [])
    (hpre : pat.isPrefixOf (c :: t) = true) :
    replaceAll (c :: t) pat rep =
      rep ++ replaceAll ((c :: t).drop pat.length) pat rep := by
  unfold replaceAll
  rw [if_neg hp, if_neg hp]
  simp only [List.length_cons, replaceAllF, if_pos hpre]
  congr 1
  apply replaceAllF_irrel pat rep hp
  · have hpl : 1 ≤ pat.length := List.length_pos.mpr hp
    simp only [List.length_drop, List.length_cons]
    omega
  · exact le_rfl

theorem replaceAll_neg (c : Char) (t pat rep : Bytes) (hp : pat ≠ [])
    (hpre : pat.isPrefixOf (c :: t) = false) :
    replaceAll (c :: t) pat rep = c :: replaceAll t pat rep := by
  unfold replaceAll
  rw [if_neg hp, if_neg hp]
  simp only [List.length_cons, replaceAllF, hpre, Bool.false_eq_true,
    if_false]

/-- `norm1` equation: a non-CR head passes through. -/
theorem norm1_cons_ne (c : Char) (t : Bytes) (hr : c ≠ '\r') :
    norm1 (c :: t) = c :: norm1 t := by
  rw [norm1.eq_def]
  split
  · simp_all
  · simp_all
  · simp_all
  · simp_all
  · rename_i h1 h2 h3 heq
    injection heq with e1 e2
    subst e1; subst e2
    rfl

/-- `norm1` equation: CR followed by a non-LF character. -/
theorem norm1_cr_cons (c : Char) (t : Bytes) (hn : c ≠ '\n') :
    norm1 ('\r' :: c :: t) = '\n' :: norm1 (c :: t) := by
  rw [norm1.eq_def]
  split
  · simp_all
  · simp_all
  · simp_all
  · rename_i hg heq
    injection heq with e1 e2
    injection e2 with e3 e4
    subst e3; subst e4
    rfl
  · rename_i h1 h2 h3 heq
    exfalso
    injection heq with e1 e2
    exact h3 c t e1.symm e2.symm

theorem isPrefixOf_crlf_cons (c : Char) (rest : Bytes) :
    List.isPrefixOf "\r\n".toList ('\r' :: c :: rest) =
      (('\n' : Char) == c) := by
  show (('\r' : Char) == '\r' &&
    (('\n' : Char) == c && List.isPrefixOf ([] : Bytes) rest)) = _
  simp

theorem isPrefixOf_cr_cons (c : Char) (rest : Bytes) :
    List.isPrefixOf "\r".toList (c :: rest) = (('\r' : Char) == c) := by
  show (('\r' : Char) == c && List.isPrefixOf ([] : Bytes) rest) = _
  simp

theorem isPrefixOf_crlf_cons_ne (c : Char) (rest : Bytes) (h : c ≠ '\r') :
    List.isPrefixOf "\r\n".toList (c :: rest) = false := by
  show (('\r' : Char) == c && List.isPrefixOf "\n".toList rest) = false
  simp
  intro hh
  exact absurd hh.symm h

/-- The two `ReplaceAll` passes of `normalizeLineEndings` (CRLF→LF, then
CR→LF) equal the single-pass normalizer. -/
theorem replaceAll_crlf_cr_eq_norm1 (s : Bytes) :
    replaceAll (replaceAll s "\r\n".toList "\n".toList)
        "\r".toList "\n".toList = norm1 s := by
  induction s using norm1.induct with
  | case1 => rw [replaceAll_nil, replaceAll_nil]; rfl
  | case2 => rfl
  | case3 rest ih =>
    rw [replaceAll_pos '\r' ('\n' :: rest) _ _ (by decide)
        (by rw [isPrefixOf_crlf_cons]; decide)]
    rw [show (('\r' :: '\n' :: rest).drop "\r\n".toList.length) = rest from
      rfl]
    rw [show ("\n".toList ++ replaceAll rest "\r\n".toList "\n".toList) =
      '\n' :: replaceAll rest "\r\n".toList "\n".toList from rfl]
    rw [replaceAll_neg '\n' _ _ _ (by decide)
        (by rw [isPrefixOf_cr_cons]; decide)]
    rw [ih]
    rfl
  | case4 c rest hne ih =>
    have hcn : c ≠ '\n' := fun h => hne h
    rw [replaceAll_neg '\r' (c :: rest) _ _ (by decide)
        (by rw [isPrefixOf_crlf_cons]; simp; exact fun h => hcn h.symm)]
    rw [replaceAll_pos '\r' _ _ _ (by decide)
        (by rw [isPrefixOf_cr_cons]; decide)]
    rw [show (('\r' :: replaceAll (c :: rest) "\r\n".toList "\n".toList).drop
        "\r".toList.length) =
      replaceAll (c :: rest) "\r\n".toList "\n".toList from rfl]
    rw [show ("\n".toList ++
        replaceAll (replaceAll (c :: rest) "\r\n".toList "\n".toList)
          "\r".toList "\n".toList) =
      '\n' :: replaceAll (replaceAll (c :: rest) "\r\n".toList "\n".toList)
          "\r".toList "\n".toList from rfl]
    rw [ih, norm1_cr_cons c rest hcn]
  | case5 c rest h1 h2 h3 ih =>
    have hcr : c ≠ '\r' := by
      intro h
      subst h
      rcases rest with _ | ⟨c2, t2⟩
      · exact h1 rfl rfl
      · by_cases hc2 : c2 = '\n'
        · subst hc2; exact h2 t2 rfl rfl
        · exact h3 c2 t2 rfl rfl
    rw [replaceAll_neg c rest _ _ (by decide)
        (isPrefixOf_crlf_cons_ne c rest hcr)]
    rw [replaceAll_neg c _ _ _ (by decide)
        (by rw [isPrefixOf_cr_cons]; simp; exact fun h => hcr h.symm)]
    rw [ih, norm1_cons_ne c rest hcr]

/-- `normalizeLineEndings` to LF is the single-pass normalizer. -/
theorem normalizeLF_eq_norm1 (s : Bytes) :
    normalizeLineEndings s "\n".toList = norm1 s := by
  unfold normalizeLineEndings
  rw [if_pos rfl]
  exact replaceAll_crlf_cr_eq_norm1 s

/-- The normalized content contains no CR byte. -/
theorem norm1_no_cr (s : Bytes) : '\r' ∉ norm1 s := by
  induction s using norm1.induct with
  | case1 => simp [norm1]
  | case2 => decide
  | case3 rest ih =>
    rw [show norm1 ('\r' :: '\n' :: rest) = '\n' :: norm1 rest from rfl]
    simp only [List.mem_cons]
    rintro (h | h)
    · exact absurd h (by decide)
    · exact ih h
  | case4 c rest hne ih =>
    rw [norm1_cr_cons c rest (fun h => hne h)]
    simp only [List.mem_cons]
    rintro (h | h)
    · exact absurd h (by decide)
    · exact ih h
  | case5 c rest h1 h2 h3 ih =>
    have hcr : c ≠ '\r' := by
      intro h
      subst h
      rcases rest with _ | ⟨c2, t2⟩
      · exact h1 rfl rfl
      · by_cases hc2 : c2 = '\n'
        · subst hc2; exact h2 t2 rfl rfl
        · exact h3 c2 t2 rfl rfl
    rw [norm1_cons_ne c rest hcr]
    simp only [List.mem_cons]
    rintro (h | h)
    · exact hcr h.symm
    · exact ih h

/-- `segs` equation: LF head opens a new segment. -/
theorem segs_lf (t : Bytes) : segs ('\n' :: t) = [] :: segs t := rfl

/-- `segs` equation: CR followed by non-LF opens a new segment. -/
theorem segs_cr_cons (c : Char) (t : Bytes) (hn : c ≠ '\n') :
    segs ('\r' :: c :: t) = [] :: segs (c :: t) := by
  rw [segs.eq_def]
  split
  all_goals simp_all
  rename_i hx2 hx1 hx0 heq
  exact absurd heq.2.symm (hx1 c t heq.1.symm)

/-- `segs` equation: an ordinary character extends the current segment. -/
theorem segs_cons_other (c : Char) (t : Bytes) (hr : c ≠ '\r')
    (hn : c ≠ '\n') :
    segs (c :: t) =
      (match segs t with
       | [] => [[c]]
       | l :: ls => (c :: l) :: ls) := by
  rw [segs.eq_def]
  split
  all_goals simp_all

/-- Normalizing line endings to LF preserves the line segments. -/
theorem segs_norm1 (s : Bytes) : segs (norm1 s) = segs s := by
  induction s using norm1.induct with
  | case1 => rfl
  | case2 => rfl
  | case3 rest ih =>
    rw [show norm1 ('\r' :: '\n' :: rest) = '\n' :: norm1 rest from rfl]
    rw [segs_lf, ih]
    rfl
  | case4 c rest hne ih =>
    have hcn : c ≠ '\n' := fun h => hne h
    rw [norm1_cr_cons c rest hcn, segs_lf, ih, segs_cr_cons c rest hcn]
  | case5 c rest h1 h2 h3 ih =>
    have hcr : c ≠ '\r' := by
      intro h
      subst h
      rcases rest with _ | ⟨c2, t2⟩
      · exact h1 rfl rfl
      · by_cases hc2 : c2 = '\n'
        · subst hc2; exact h2 t2 rfl rfl
        · exact h3 c2 t2 rfl rfl
    rw [norm1_cons_ne c rest hcr]
    by_cases hcn : c = '\n'
    · subst hcn
      rw [segs_lf, segs_lf, ih]
    · rw [segs_cons_other c (norm1 rest) hcr hcn,
        segs_cons_other c rest hcr hcn, ih]

/-- With `end_of_line = lf`, `FixEndOfLine` is exactly the single-pass
normalizer, and the changed flag is content inequality. -/
theorem fixEndOfLine_lf (cfg : ResolvedConfig) (fp content : Bytes)
    (h : cfg.EndOfLine = "lf".toList) :
    fixEndOfLine fp content cfg =
      (norm1 content, decide (content ≠ norm1 content)) := by
  unfold fixEndOfLine
  rw [h]
  rw [if_neg (by decide)]
  by_cases hc : content = []
  · subst hc
    rw [if_pos rfl]
    rfl
  · rw [if_neg hc, if_pos rfl, normalizeLF_eq_norm1]

/-- C3. With `end_of_line` resolved to `lf`, for every content (any mixture
of LF, CRLF and CR terminators) the end-of-line fixer returns content whose
every line terminator is LF (no CR byte remains), with the sequence of line
segments between terminators — and hence the number of lines — unchanged;
and `"a\r\nb\rc\n"` fixes to `"a\nb\nc\n"`. -/
theorem c3_eol_lf_roundtrip (cfg : ResolvedConfig) (fp : Bytes)
    (h : cfg.EndOfLine = "lf".toList) :
    (∀ content : Bytes,
      '\r' ∉ (fixEndOfLine fp content cfg).1 ∧
      segs (fixEndOfLine fp content cfg).1 = segs content ∧
      (segs (fixEndOfLine fp content cfg).1).length =
        (segs content).length) ∧
    fixEndOfLine fp "a\r\nb\rc\n".toList cfg = ("a\nb\nc\n".toList, true) := by
  constructor
  · intro content
    rw [fixEndOfLine_lf cfg fp content h]
    exact ⟨norm1_no_cr content, segs_norm1 content,
      by rw [segs_norm1 content]⟩
  · rw [fixEndOfLine_lf cfg fp _ h]
    rfl

/-- C3 witness: the theorem applied at a concrete configuration, including
the spec's example input. -/
theorem c3_witness :
    fixEndOfLine "f".toList "a\r\nb\rc\n".toList
        { EndOfLine := "lf".toList } = ("a\nb\nc\n".toList, true) ∧
    '\r' ∉ (fixEndOfLine "f".toList "x\r\ny\rz".toList
        { EndOfLine := "lf".toList }).1 := by
  constructor
  · exact (c3_eol_lf_roundtrip { EndOfLine := "lf".toList } "f".toList rfl).2
  · exact ((c3_eol_lf_roundtrip { EndOfLine := "lf".toList } "f".toList
      rfl).1 "x\r\ny\rz".toList).1

theorem trimRightWS_nil : trimRightWS [] = [] := rfl

/-- The explicit last-empty-line skip in the validator loop is redundant:
an empty line never ends in whitespace. The loop equals an indexed first
search. -/
theorem checkLinesFrom_eq (ls : List Bytes) : ∀ total i : Nat,
    checkLinesFrom total i ls =
      (ls.findIdx? hasTrailingWS i).map (· + 1) := by
  induction ls with
  | nil => intro total i; rfl
  | cons l rest ih =>
    intro total i
    rw [checkLinesFrom, List.findIdx?_cons]
    by_cases h1 : i = total - 1 ∧ l = []
    · rw [if_pos h1]
      have hb : hasTrailingWS l = false := by simp [hasTrailingWS, h1.2]
      rw [if_neg (by rw [hb]; simp)]
      exact ih total (i + 1)
    · rw [if_neg h1]
      by_cases h2 : l ≠ [] ∧ (l.getLast?.map isWhitespaceB = some true)
      · have hb : hasTrailingWS l = true := by
          simp [hasTrailingWS, h2.1, h2.2]
        rw [if_pos h2, if_pos (by rw [hb])]
        rfl
      · have hb : hasTrailingWS l = false := by
          by_cases hl : l = []
          · simp [hasTrailingWS, hl]
          · have hw : ¬(l.getLast?.map isWhitespaceB = some true) :=
              fun hw => h2 ⟨hl, hw⟩
            simp [hasTrailingWS, hl, hw]
        rw [if_neg h2, if_neg (by rw [hb]; simp)]
        exact ih total (i + 1)

/-- The skip in the trimming loop is likewise redundant: trimming an empty
line is the identity. -/
theorem trimLinesFrom_eq (ls : List Bytes) : ∀ total i : Nat,
    trimLinesFrom total i ls = ls.map trimRightWS := by
  induction ls with
  | nil => intro total i; rfl
  | cons l rest ih =>
    intro total i
    rw [trimLinesFrom, List.map_cons]
    by_cases h1 : i = total - 1 ∧ l = []
    · rw [if_pos h1, ih]
      rw [h1.2, trimRightWS_nil]
    · rw [if_neg h1, ih]

/-- The conditional line-ending writes of the rejoin loop always fire
between two lines: the loop is a plain join. -/
theorem rejoinLinesFrom_eq (ending : Bytes) (lastEmpty : Bool) :
    ∀ (ls : List Bytes) (i total : Nat), total = i + ls.length →
      rejoinLinesFrom total lastEmpty ending i ls = joinWith ending ls := by
  intro ls
  induction ls with
  | nil => intro i total h; rfl
  | cons l rest ih =>
    intro i total h
    rw [rejoinLinesFrom]
    cases rest with
    | nil =>
      have hlt : ¬ (i < total - 1) := by
        simp only [List.length_cons, List.length_nil] at h
        omega
      rw [if_neg hlt]
      show l ++ [] ++ rejoinLinesFrom total lastEmpty ending (i + 1) [] =
        joinWith ending [l]
      rw [rejoinLinesFrom]
      simp [joinWith]
    | cons l2 rest2 =>
      have h1 : i < total - 1 := by
        simp only [List.length_cons] at h
        omega
      rw [if_pos h1]
      have hsep : (if i = total - 2 ∧ lastEmpty = true then ending
          else if i < total - 2 ∨ ¬ lastEmpty = true then ending else []) =
          ending := by
        by_cases h2 : i = total - 2 ∧ lastEmpty = true
        · rw [if_pos h2]
        · rw [if_neg h2]
          have h3 : i < total - 2 ∨ ¬ lastEmpty = true := by
            by_cases hle : lastEmpty = true
            · left
              have hne : i ≠ total - 2 := fun he => h2 ⟨he, hle⟩
              simp only [List.length_cons] at h
              omega
            · right; exact hle
          rw [if_pos h3]
      rw [hsep]
      rw [ih (i + 1) total (by simp only [List.length_cons] at h ⊢; omega)]
      show l ++ ending ++ joinWith ending (l2 :: rest2) =
        joinWith ending (l :: l2 :: rest2)
      rfl

theorem length_dropWhile_le' (p : Char → Bool) (l : Bytes) :
    (List.dropWhile p l).length ≤ l.length := by
  induction l with
  | nil => simp
  | cons a t ih =>
    by_cases h : p a = true
    · rw [List.dropWhile_cons_of_pos h]
      exact le_trans ih (by simp)
    · rw [List.dropWhile_cons_of_neg h]

/-- A line is left unchanged by trimming exactly when it does not end in a
space or tab. -/
theorem trimRightWS_eq_self_iff (l : Bytes) :
    trimRightWS l = l ↔ hasTrailingWS l = false := by
  rcases hr : l.reverse with _ | ⟨a, t⟩
  · have hl : l = [] := by simpa using congrArg List.reverse hr
    subst hl
    simp [trimRightWS, hasTrailingWS]
  · have hl : l = (a :: t).reverse := by simpa using congrArg List.reverse hr
    have hlast : l.getLast? = some a := by
      rw [← List.head?_reverse, hr]; rfl
    have hne : l ≠ [] := by rw [hl]; simp
    by_cases ha : isWhitespaceB a = true
    · apply iff_of_false
      · intro heq
        have heq' : (List.dropWhile isWhitespaceB t).reverse = l := by
          have h0 : trimRightWS l = l := heq
          unfold trimRightWS at h0
          rw [hr, List.dropWhile_cons_of_pos ha] at h0
          exact h0
        have hlen : (List.dropWhile isWhitespaceB t).length = l.length := by
          calc (List.dropWhile isWhitespaceB t).length
              = (List.dropWhile isWhitespaceB t).reverse.length := by simp
            _ = l.length := by rw [heq']
        have h2 : (List.dropWhile isWhitespaceB t).length ≤ t.length :=
          length_dropWhile_le' _ _
        have h3 : l.length = t.length + 1 := by rw [hl]; simp
        omega
      · simp [hasTrailingWS, hlast, hne, ha]
    · apply iff_of_true
      · unfold trimRightWS
        rw [hr, List.dropWhile_cons_of_neg ha, ← hr, List.reverse_reverse]
      · simp [hasTrailingWS, hlast, ha]

/-- Mapping the trim over the lines is the identity exactly when no line has
trailing whitespace. -/
theorem map_trim_eq_self_iff (ls : List Bytes) :
    ls.map trimRightWS = ls ↔ ls.findIdx? hasTrailingWS = none := by
  rw [List.findIdx?_eq_none_iff]
  induction ls with
  | nil => simp
  | cons l rest ih =>
    simp only [List.map_cons, List.cons.injEq, List.mem_cons]
    constructor
    · rintro ⟨h1, h2⟩
      intro x hx
      rcases hx with rfl | hx
      · exact (trimRightWS_eq_self_iff x).mp h1
      · exact (ih.mp h2) x hx
    · intro h
      refine ⟨(trimRightWS_eq_self_iff l).mpr (h l (Or.inl rfl)), ?_⟩
      exact ih.mpr fun x hx => h x (Or.inr hx)

/-- C5 counterexample. The claim states that a line ending in a space or tab
before a CRLF (or bare CR) terminator is reported and fixed. It is not: the
code splits on `\n` only, so a CRLF-terminated line still ends in the CR byte
and is neither reported as a violation nor trimmed — `"a \r\n"` (line 1 ends
in a space before its CRLF terminator) validates clean and fixes to itself
with `changed = false`. -/
theorem c5_counterexample :
    validateTrimTrailingWhitespace "f".toList "a \r\n".toList
        { TrimTrailingWhitespace := some true } = none ∧
    fixTrimTrailingWhitespace "f".toList "a \r\n".toList
        { TrimTrailingWhitespace := some true } = ("a \r\n".toList, false) := by
  constructor <;> rfl

/-- C5, amended: with `trim_trailing_whitespace` resolved to true, the
validator reports a violation if and only if some LF-separated segment of the
content ends in a space or tab — segments ending in a CR byte (CRLF or bare
CR terminated lines) are never flagged — reporting the first such segment's
1-based line number; the fixer strips trailing spaces and tabs from each
LF-separated segment and rejoins the segments with the file's dominant
line-ending bytes (CRLF if present anywhere, else CR, else LF), returning the
content unchanged with `changed = false` exactly when the validator reports
nothing. -/
theorem c5_amended (cfg : ResolvedConfig) (fp : Bytes)
    (h : cfg.TrimTrailingWhitespace = some true) :
    ∀ content : Bytes, content ≠ [] →
      (validateTrimTrailingWhitespace fp content cfg =
        ((splitOnChar '\n' content).findIdx? hasTrailingWS).map
          (fun k => ⟨fp, "trim_trailing_whitespace".toList,
            "line ".toList ++ natDec (k + 1) ++
              " has trailing whitespace".toList⟩)) ∧
      (fixTrimTrailingWhitespace fp content cfg =
        (if (splitOnChar '\n' content).map trimRightWS =
            splitOnChar '\n' content then (content, false)
         else (joinWith (dominantLineEnding content)
            ((splitOnChar '\n' content).map trimRightWS), true))) ∧
      (validateTrimTrailingWhitespace fp content cfg = none ↔
        (fixTrimTrailingWhitespace fp content cfg).2 = false) := by
  intro content hc
  have hval : validateTrimTrailingWhitespace fp content cfg =
      ((splitOnChar '\n' content).findIdx? hasTrailingWS).map
        (fun k => ⟨fp, "trim_trailing_whitespace".toList,
          "line ".toList ++ natDec (k + 1) ++
            " has trailing whitespace".toList⟩) := by
    unfold validateTrimTrailingWhitespace
    rw [h, if_neg (by simp), if_neg hc]
    rw [checkLinesFrom_eq]
    rw [Option.map_map]
    rfl
  have hfix : fixTrimTrailingWhitespace fp content cfg =
      (if (splitOnChar '\n' content).map trimRightWS =
          splitOnChar '\n' content then (content, false)
       else (joinWith (dominantLineEnding content)
          ((splitOnChar '\n' content).map trimRightWS), true)) := by
    unfold fixTrimTrailingWhitespace dominantLineEnding
    rw [h, if_neg (by simp), if_neg hc]
    simp only [trimLinesFrom_eq]
    by_cases heq : (splitOnChar '\n' content).map trimRightWS =
        splitOnChar '\n' content
    · rw [if_pos heq, if_pos heq]
    · rw [if_neg heq, if_neg heq]
      rw [rejoinLinesFrom_eq _ _ _ _ _ (by simp)]
  refine ⟨hval, hfix, ?_⟩
  rw [hval, hfix]
  by_cases heq : (splitOnChar '\n' content).map trimRightWS =
      splitOnChar '\n' content
  · rw [if_pos heq]
    simp [Option.map_eq_none', (map_trim_eq_self_iff _).mp heq]
  · rw [if_neg heq]
    constructor
    · intro hnone
      exact absurd ((map_trim_eq_self_iff _).mpr
        (Option.map_eq_none'.mp hnone)) heq
    · intro hfalse
      simp at hfalse

/-- C5 witness: the spec's example — `"x \n"` is a violation at line 1 and
fixes to `"x\n"` — obtained from the amended theorem at a concrete
configuration. -/
theorem c5_witness :
    validateTrimTrailingWhitespace "f".toList "x \n".toList
        { TrimTrailingWhitespace := some true } =
      some ⟨"f".toList, "trim_trailing_whitespace".toList,
        "line 1 has trailing whitespace".toList⟩ ∧
    fixTrimTrailingWhitespace "f".toList "x \n".toList
        { TrimTrailingWhitespace := some true } = ("x\n".toList, true) := by
  have h := c5_amended { TrimTrailingWhitespace := some true } "f".toList rfl
    "x \n".toList (by decide)
  exact ⟨h.1.trans (by rfl), h.2.1.trans (by rfl)⟩



theorem readField_applyIndentStyle (r : ResolvedConfig) (v : Bytes)
    (f : FieldName) :
    readField (applyIndentStyle r v) f =
      if f = .indentStyle ∧ (v = "tab".toList ∨ v = "space".toList) then
        .str v
      else readField r f := by
  unfold applyIndentStyle
  by_cases hv : v = "tab".toList ∨ v = "space".toList
  · rw [if_pos hv]
    by_cases hf : f = FieldName.indentStyle
    · subst hf
      rw [if_pos ⟨rfl, hv⟩]
      simp only [readField]
    · rw [if_neg (fun hcon => hf hcon.1)]
      cases f <;> simp only [readField] <;>
        first | exact absurd rfl hf | rfl
  · rw [if_neg hv, if_neg (fun hcon => hv hcon.2)]

theorem readField_applyIndentSize (r : ResolvedConfig) (v : Bytes)
    (f : FieldName) :
    readField (applyIndentSize r v) f =
      if f = .indentSize then
        (if v = "tab".toList then FieldVal.oint none
         else if 0 < (atoiGo v).getD 0 then .oint (atoiGo v)
         else readField r f)
      else readField r f := by
  unfold applyIndentSize
  by_cases hf : f = FieldName.indentSize
  · subst hf
    rw [if_pos rfl]
    by_cases ht : v = "tab".toList
    · rw [if_pos ht, if_pos ht]
      simp only [readField]
    · rw [if_neg ht, if_neg ht]
      by_cases hn : 0 < (atoiGo v).getD 0
      · rw [if_pos hn, if_pos hn]
        simp only [readField]
      · rw [if_neg hn, if_neg hn]
  · rw [if_neg hf]
    by_cases ht : v = "tab".toList
    · rw [if_pos ht]
      cases f <;> simp only [readField] <;>
        first | exact absurd rfl hf | rfl
    · rw [if_neg ht]
      by_cases hn : 0 < (atoiGo v).getD 0
      · rw [if_pos hn]
        cases f <;> simp only [readField] <;>
          first | exact absurd rfl hf | rfl
      · rw [if_neg hn]

theorem readField_applyTabWidth (r : ResolvedConfig) (v : Bytes)
    (f : FieldName) :
    readField (applyTabWidth r v) f =
      if f = .tabWidth ∧ 0 < (atoiGo v).getD 0 then .oint (atoiGo v)
      else readField r f := by
  unfold applyTabWidth
  by_cases hn : 0 < (atoiGo v).getD 0
  · rw [if_pos hn]
    by_cases hf : f = FieldName.tabWidth
    · subst hf
      rw [if_pos ⟨rfl, hn⟩]
      simp only [readField]
    · rw [if_neg (fun hcon => hf hcon.1)]
      cases f <;> simp only [readField] <;>
        first | exact absurd rfl hf | rfl
  · rw [if_neg hn, if_neg (fun hcon => hn hcon.2)]

theorem readField_applyEndOfLine (r : ResolvedConfig) (v : Bytes)
    (f : FieldName) :
    readField (applyEndOfLine r v) f =
      if f = .endOfLine ∧
          (v = "lf".toList ∨ v = "crlf".toList ∨ v = "cr".toList) then
        .str v
      else readField r f := by
  unfold applyEndOfLine
  by_cases hv : v = "lf".toList ∨ v = "crlf".toList ∨ v = "cr".toList
  · rw [if_pos hv]
    by_cases hf : f = FieldName.endOfLine
    · subst hf
      rw [if_pos ⟨rfl, hv⟩]
      simp only [readField]
    · rw [if_neg (fun hcon => hf hcon.1)]
      cases f <;> simp only [readField] <;>
        first | exact absurd rfl hf | rfl
  · rw [if_neg hv, if_neg (fun hcon => hv hcon.2)]

theorem readField_applyTrimTW (r : ResolvedConfig) (v : Bytes)
    (f : FieldName) :
    readField (applyTrimTW r v) f =
      if f = .trimTW ∧ (parseBoolGo v).isSome then .obool (parseBoolGo v)
      else readField r f := by
  unfold applyTrimTW
  by_cases hb : (parseBoolGo v).isSome
  · rw [if_pos hb]
    by_cases hf : f = FieldName.trimTW
    · subst hf
      rw [if_pos ⟨rfl, hb⟩]
      simp only [readField]
    · rw [if_neg (fun hcon => hf hcon.1)]
      cases f <;> simp only [readField] <;>
        first | exact absurd rfl hf | rfl
  · rw [if_neg hb, if_neg (fun hcon => hb hcon.2)]

theorem readField_applyInsertFN (r : ResolvedConfig) (v : Bytes)
    (f : FieldName) :
    readField (applyInsertFN r v) f =
      if f = .insertFN ∧ (parseBoolGo v).isSome then .obool (parseBoolGo v)
      else readField r f := by
  unfold applyInsertFN
  by_cases hb : (parseBoolGo v).isSome
  · rw [if_pos hb]
    by_cases hf : f = FieldName.insertFN
    · subst hf
      rw [if_pos ⟨rfl, hb⟩]
      simp only [readField]
    · rw [if_neg (fun hcon => hf hcon.1)]
      cases f <;> simp only [readField] <;>
        first | exact absurd rfl hf | rfl
  · rw [if_neg hb, if_neg (fun hcon => hb hcon.2)]

theorem readField_applyMaxLineLength (r : ResolvedConfig) (v : Bytes)
    (f : FieldName) :
    readField (applyMaxLineLength r v) f =
      if f = .maxLineLength then
        (if v = "off".toList then FieldVal.oint none
         else if 0 < (atoiGo v).getD 0 then .oint (atoiGo v)
         else readField r f)
      else readField r f := by
  unfold applyMaxLineLength
  by_cases hf : f = FieldName.maxLineLength
  · subst hf
    rw [if_pos rfl]
    by_cases ht : v = "off".toList
    · rw [if_pos ht, if_pos ht]
      simp only [readField]
    · rw [if_neg ht, if_neg ht]
      by_cases hn : 0 < (atoiGo v).getD 0
      · rw [if_pos hn, if_pos hn]
        simp only [readField]
      · rw [if_neg hn, if_neg hn]
  · rw [if_neg hf]
    by_cases ht : v = "off".toList
    · rw [if_pos ht]
      cases f <;> simp only [readField] <;>
        first | exact absurd rfl hf | rfl
    · rw [if_neg ht]
      by_cases hn : 0 < (atoiGo v).getD 0
      · rw [if_pos hn]
        cases f <;> simp only [readField] <;>
          first | exact absurd rfl hf | rfl
      · rw [if_neg hn]

/-- One property application, seen through a field projection: it either
writes the field's new value or leaves the field alone. -/
theorem readField_applyProp (r : ResolvedConfig) (kv : Bytes × Bytes)
    (f : FieldName) :
    readField (applyProp r kv) f = (writeOf f kv).getD (readField r f) := by
  rcases kv with ⟨k, v⟩
  unfold applyProp
  by_cases h1 : k = "indent_style".toList
  · subst h1
    rw [if_pos rfl, readField_applyIndentStyle]
    by_cases hv : v = "tab".toList ∨ v = "space".toList
    · cases f <;> simp [writeOf, hv] <;> split <;> simp
    · cases f <;> simp [writeOf, hv] <;> split <;> simp
  · rw [if_neg h1]
    by_cases h2 : k = "indent_size".toList
    · subst h2
      rw [if_pos rfl, readField_applyIndentSize]
      by_cases ht : v = "tab".toList
      · cases f <;> simp [writeOf, ht] <;> split <;> simp
      · by_cases hn : 0 < (atoiGo v).getD 0
        · cases f <;> simp [writeOf, ht, hn] <;> split <;> simp
        · cases f <;> simp [writeOf, ht, hn] <;> split <;> simp
    · rw [if_neg h2]
      by_cases h3 : k = "tab_width".toList
      · subst h3
        rw [if_pos rfl, readField_applyTabWidth]
        by_cases hn : 0 < (atoiGo v).getD 0
        · cases f <;> simp [writeOf, hn] <;> split <;> simp
        · cases f <;> simp [writeOf, hn] <;> split <;> simp
      · rw [if_neg h3]
        by_cases h4 : k = "end_of_line".toList
        · subst h4
          rw [if_pos rfl, readField_applyEndOfLine]
          by_cases hv : v = "lf".toList ∨ v = "crlf".toList ∨ v = "cr".toList
          · cases f <;> simp [writeOf, hv] <;> split <;> simp
          · cases f <;> simp [writeOf, hv] <;> split <;> simp
        · rw [if_neg h4]
          by_cases h5 : k = "charset".toList
          · subst h5
            rw [if_pos rfl]
            cases f <;> simp [writeOf, readField] <;> split <;> simp
          · rw [if_neg h5]
            by_cases h6 : k = "trim_trailing_whitespace".toList
            · subst h6
              rw [if_pos rfl, readField_applyTrimTW]
              by_cases hb : (parseBoolGo v).isSome
              · cases f <;> simp [writeOf, hb] <;> split <;> simp
              · cases f <;> simp [writeOf, hb] <;> split <;> simp
            · rw [if_neg h6]
              by_cases h7 : k = "insert_final_newline".toList
              · subst h7
                rw [if_pos rfl, readField_applyInsertFN]
                by_cases hb : (parseBoolGo v).isSome
                · cases f <;> simp [writeOf, hb] <;> split <;> simp
                · cases f <;> simp [writeOf, hb] <;> split <;> simp
              · rw [if_neg h7]
                by_cases h8 : k = "max_line_length".toList
                · subst h8
                  rw [if_pos rfl, readField_applyMaxLineLength]
                  by_cases ht : v = "off".toList
                  · cases f <;> simp [writeOf, ht] <;> split <;> simp
                  · by_cases hn : 0 < (atoiGo v).getD 0
                    · cases f <;> simp [writeOf, ht, hn] <;> split <;> simp
                    · cases f <;> simp [writeOf, ht, hn] <;> split <;> simp
                · rw [if_neg h8]
                  cases f <;> simp only [writeOf] <;> split <;>
                    first
                      | rfl
                      | (rename_i hk
                         first
                           | exact absurd hk h1 | exact absurd hk h2
                           | exact absurd hk h3 | exact absurd hk h4
                           | exact absurd hk h5 | exact absurd hk h6
                           | exact absurd hk h7 | exact absurd hk h8
                           | exact absurd hk.1 h1 | exact absurd hk.1 h2
                           | exact absurd hk.1 h3 | exact absurd hk.1 h4
                           | exact absurd hk.1 h5 | exact absurd hk.1 h6
                           | exact absurd hk.1 h7 | exact absurd hk.1 h8)

/-- Folding property applications, seen through a field projection: the last
write wins, fields never written keep their accumulated value. -/
theorem readField_foldl (kvs : List (Bytes × Bytes)) :
    ∀ (r : ResolvedConfig) (f : FieldName),
      readField (kvs.foldl applyProp r) f =
        (lastWrite f kvs).getD (readField r f) := by
  induction kvs with
  | nil => intro r f; rfl
  | cons kv rest ih =>
    intro r f
    rw [List.foldl_cons, ih, lastWrite]
    cases hrest : lastWrite f rest with
    | some w => rfl
    | none =>
      simp only [Option.getD_none]
      exact readField_applyProp r kv f

theorem applyProperties_append (r : ResolvedConfig)
    (xs ys : List (Bytes × Bytes)) :
    applyProperties r (xs ++ ys) = applyProperties (applyProperties r xs) ys :=
  List.foldl_append ..

/-- The section loop equals collecting the matching properties and folding
them in. -/
theorem applySectionsE_eq_collect (fp cp : Bytes) (secs : List Section) :
    ∀ r : ResolvedConfig,
      applySectionsE fp cp r secs =
        (collectSectionsE fp cp secs).map fun kvs => applyProperties r kvs := by
  induction secs with
  | nil => intro r; rfl
  | cons sec rest ih =>
    intro r
    rw [applySectionsE, collectSectionsE]
    cases hm : matchesPattern fp sec.Pattern cp with
    | error e => rfl
    | ok b =>
      cases b with
      | true =>
        rw [ih]
        cases hcol : collectSectionsE fp cp rest with
        | error e => rfl
        | ok kvs =>
          show Except.ok (applyProperties (applyProperties r sec.Properties)
            kvs) = Except.ok (applyProperties r (sec.Properties ++ kvs))
          rw [applyProperties_append]
      | false => exact ih r

/-- The document loop equals collecting all matching properties (document
order, section order) and folding them in. -/
theorem resolveFromE_eq_collect (fp : Bytes) (cfgs : List EditorConfig) :
    ∀ r : ResolvedConfig,
      resolveFromE fp r cfgs =
        (collectMatchedProps fp cfgs).map fun kvs => applyProperties r kvs := by
  induction cfgs with
  | nil => intro r; rfl
  | cons cfg rest ih =>
    intro r
    rw [resolveFromE, collectMatchedProps]
    rw [applySectionsE_eq_collect]
    cases hcol : collectSectionsE fp cfg.FilePath cfg.Sections with
    | error e => rfl
    | ok kvs =>
      show resolveFromE fp (applyProperties r kvs) rest = _
      rw [ih]
      cases hcol2 : collectMatchedProps fp rest with
      | error e => rfl
      | ok kvs2 =>
        show Except.ok (applyProperties (applyProperties r kvs) kvs2) =
          Except.ok (applyProperties r (kvs ++ kvs2))
        rw [applyProperties_append]

/-- C2. Property resolution visits the ordered document list and each
document's sections in order, collecting the `key = value` pairs of every
matching section; whenever resolution succeeds, each field of the result is
the value written by the last matching pair that sets it (later documents and
later sections overwrite earlier ones), and a field no matching pair sets
retains its default — in particular, a property set by an earlier document
and untouched later keeps the earlier value. -/
theorem c2_cascade_last_writer_wins (fp : Bytes) (cfgs : List EditorConfig)
    (r : ResolvedConfig)
    (h : resolveConfigForFile fp cfgs = .ok r) :
    ∃ kvs, collectMatchedProps fp cfgs = .ok kvs ∧
      ∀ f : FieldName,
        readField r f = (lastWrite f kvs).getD (readField {} f) := by
  unfold resolveConfigForFile at h
  rw [resolveFromE_eq_collect] at h
  cases hcol : collectMatchedProps fp cfgs with
  | error e => rw [hcol] at h; cases h
  | ok kvs =>
    rw [hcol] at h
    refine ⟨kvs, rfl, ?_⟩
    intro f
    have hr : applyProperties {} kvs = r := by
      cases h; rfl
    rw [← hr]
    exact readField_foldl kvs {} f

/-- C2 witness: a two-document cascade (ancestor sets `indent_style` and
`indent_size`, child resets `indent_size`), run through the theorem at
concrete inputs: the later document's `indent_size` wins and the ancestor's
`indent_style` survives untouched. -/
theorem c2_witness :
    readField { IndentStyle := "space".toList, IndentSize := some 2 }
      FieldName.indentSize = FieldVal.oint (some 2) ∧
    readField { IndentStyle := "space".toList, IndentSize := some 2 }
      FieldName.indentStyle = FieldVal.str "space".toList := by
  obtain ⟨kvs, hkvs, hf⟩ := c2_cascade_last_writer_wins "/r/s/f.go".toList
    [⟨true, [⟨"*".toList, [("indent_style".toList, "space".toList),
        ("indent_size".toList, "4".toList)]⟩], "/r/.editorconfig".toList⟩,
     ⟨false, [⟨"*".toList, [("indent_size".toList, "2".toList)]⟩],
        "/r/s/.editorconfig".toList⟩]
    { IndentStyle := "space".toList, IndentSize := some 2 } (by rfl)
  have hcol : collectMatchedProps "/r/s/f.go".toList
      [⟨true, [⟨"*".toList, [("indent_style".toList, "space".toList),
          ("indent_size".toList, "4".toList)]⟩], "/r/.editorconfig".toList⟩,
       ⟨false, [⟨"*".toList, [("indent_size".toList, "2".toList)]⟩],
          "/r/s/.editorconfig".toList⟩] =
      .ok [("indent_style".toList, "space".toList),
        ("indent_size".toList, "4".toList),
        ("indent_size".toList, "2".toList)] := by rfl
  rw [hcol] at hkvs
  injection hkvs with hk
  subst hk
  exact ⟨(hf FieldName.indentSize).trans rfl,
    (hf FieldName.indentStyle).trans rfl⟩

/-- A regex string that does not compile matches nothing — Go's
`MatchString` returns an error, so `err == nil && matched` is false. -/
theorem goRegexMatch_none (re : Bytes)
    (h : regexCompiles re = false) (s : Bytes) : goRegexMatch re s = none := by
  unfold goRegexMatch
  unfold regexCompiles at h
  cases hx : (stripAnchors re).bind parseRegexBody with
  | none => rfl
  | some r => rw [hx] at h; cases h

/-- When the produced regex does not compile, `matchesPattern` returns an
error (either from `Rel` or from `MatchString`). -/
theorem matchesPattern_err (fp pattern cp : Bytes)
    (h : regexCompiles (convertPatternToRegex pattern) = false) :
    ∃ e, matchesPattern fp pattern cp = .error e := by
  unfold matchesPattern
  cases hr : goRel (goDir cp) fp with
  | error e => exact ⟨e, rfl⟩
  | ok rel =>
    refine ⟨"error parsing regexp".toList, ?_⟩
    show (match goRegexMatch (convertPatternToRegex pattern) rel with
      | none => Except.error "error parsing regexp".toList
      | some b => Except.ok b) = _
    rw [goRegexMatch_none _ h]

theorem applySectionsE_err (fp cp : Bytes) (secs : List Section)
    (h : ∃ sec ∈ secs,
      regexCompiles (convertPatternToRegex sec.Pattern) = false) :
    ∀ r : ResolvedConfig, (applySectionsE fp cp r secs).isOk = false := by
  induction secs with
  | nil => rcases h with ⟨sec, hmem, _⟩; cases hmem
  | cons s0 rest ih =>
    intro r
    rcases h with ⟨sec, hmem, hsec⟩
    rcases List.mem_cons.mp hmem with rfl | hmem'
    · obtain ⟨e, he⟩ := matchesPattern_err fp sec.Pattern cp hsec
      rw [applySectionsE, he]
      rfl
    · rw [applySectionsE]
      cases hm : matchesPattern fp s0.Pattern cp with
      | error e => rfl
      | ok b =>
        cases b with
        | true => exact ih ⟨sec, hmem', hsec⟩ _
        | false => exact ih ⟨sec, hmem', hsec⟩ r

theorem resolveFromE_err (fp : Bytes) (cfgs : List EditorConfig)
    (h : ∃ cfg ∈ cfgs, ∃ sec ∈ cfg.Sections,
      regexCompiles (convertPatternToRegex sec.Pattern) = false) :
    ∀ r : ResolvedConfig, (resolveFromE fp r cfgs).isOk = false := by
  induction cfgs with
  | nil => rcases h with ⟨cfg, hmem, _⟩; cases hmem
  | cons c0 rest ih =>
    intro r
    rcases h with ⟨cfg, hmem, hbad⟩
    rcases List.mem_cons.mp hmem with rfl | hmem'
    · rw [resolveFromE]
      cases hs : applySectionsE fp cfg.FilePath r cfg.Sections with
      | error e => rfl
      | ok r' =>
        have := applySectionsE_err fp cfg.FilePath cfg.Sections hbad r
        rw [hs] at this
        cases this
    · rw [resolveFromE]
      cases hs : applySectionsE fp c0.FilePath r c0.Sections with
      | error e => rfl
      | ok r' => exact ih ⟨cfg, hmem', hbad⟩ r'

/-- C8 counterexample. The claim states that a malformed section-header
pattern makes only that section's rule be skipped and resolution still
succeed using the remaining sections. It does not: the match error
propagates out of `ResolveConfigForFile`, failing the whole resolution even
though the document's other section (`[*]`, setting `charset`) would resolve
fine on its own. -/
theorem c8_counterexample :
    (resolveConfigForFile "/d/a.txt".toList
      [⟨false, [⟨"[".toList, []⟩,
          ⟨"*".toList, [("charset".toList, "utf-8".toList)]⟩],
        "/d/.editorconfig".toList⟩]).isOk = false ∧
    resolveConfigForFile "/d/a.txt".toList
      [⟨false, [⟨"*".toList, [("charset".toList, "utf-8".toList)]⟩],
        "/d/.editorconfig".toList⟩] =
      .ok { Charset := "utf-8".toList } := by
  constructor <;> rfl

/-- C8, amended: a malformed glob in the exclusion list is skipped — it
matches nothing, so exclusion checking proceeds exactly as if the pattern
were absent, without error; but a malformed glob in a section header is not
skipped: the compilation/match error propagates and the whole
`ResolveConfigForFile` call for that file fails, regardless of the remaining
sections. -/
theorem c8_pattern_error_handling :
    (∀ (pats1 pats2 : List Bytes) (bad path : Bytes),
      regexCompiles (convertPatternToRegex bad) = false →
      shouldIgnore (pats1 ++ bad :: pats2) path =
        shouldIgnore (pats1 ++ pats2) path) ∧
    (∀ (fp : Bytes) (cfgs : List EditorConfig),
      (∃ cfg ∈ cfgs, ∃ sec ∈ cfg.Sections,
        regexCompiles (convertPatternToRegex sec.Pattern) = false) →
      (resolveConfigForFile fp cfgs).isOk = false) := by
  constructor
  · intro pats1 pats2 bad path h
    unfold shouldIgnore
    simp only [List.any_append, List.any_cons, goRegexMatch_none _ h]
    have hfalse : ((pathSuffixes path).any fun _ => false) = false :=
      List.any_eq_false.mpr (fun x _ => by simp)
    simp [hfalse]
  · intro fp cfgs h
    exact resolveFromE_err fp cfgs h {}

/-- C8 witness: the amended theorem at concrete inputs — an invalid
exclusion pattern `[` is skipped while the valid one still applies, and a
document with an invalid section pattern fails resolution. -/
theorem c8_witness :
    shouldIgnore ["*.tmp".toList, "[".toList] "a/b.txt".toList =
      shouldIgnore ["*.tmp".toList] "a/b.txt".toList ∧
    (resolveConfigForFile "/d/a.txt".toList
      [⟨false, [⟨"[".toList, []⟩, ⟨"*".toList, []⟩],
        "/d/.editorconfig".toList⟩]).isOk = false := by
  constructor
  · exact c8_pattern_error_handling.1 ["*.tmp".toList] [] "[".toList
      "a/b.txt".toList (by rfl)
  · exact c8_pattern_error_handling.2 "/d/a.txt".toList
      [⟨false, [⟨"[".toList, []⟩, ⟨"*".toList, []⟩],
        "/d/.editorconfig".toList⟩]
      ⟨_, List.mem_singleton.mpr rfl, ⟨"[".toList, []⟩,
        List.mem_cons.mpr (Or.inl rfl), by rfl⟩

/-! ### Star semantics of the produced matcher (C6) -/

theorem isPrefixOf_head_ne (a c : Char) (p t : Bytes) (h : a ≠ c) :
    List.isPrefixOf (a :: p) (c :: t) = false := by
  show (a == c && List.isPrefixOf p t) = false
  simp [h]

theorem quoteMeta_append (a b : Bytes) :
    quoteMeta (a ++ b) = quoteMeta a ++ quoteMeta b := by
  unfold quoteMeta
  exact List.flatMap_append ..

theorem takeStar_no_star (r : RE) (s : Bytes) (h : s.head? ≠ some '*') :
    takeStar r s = (r, s) := by
  cases s with
  | nil => rfl
  | cons c t =>
    rw [takeStar.eq_def]
    split
    · rename_i rest heq
      injection heq with e1 e2
      exact absurd (by simp [e1]) h
    · rfl

theorem parseItems_cons_plain (c : Char) (t : Bytes) (f : Nat)
    (hc : regexSpecial c = false) (hstar : t.head? ≠ some '*') :
    parseItems (f + 1) (c :: t) =
      (parseItems f t).map fun items => RE.lit c :: items := by
  have h1 : ¬ c = '\\' := by intro h; subst h; simp [regexSpecial] at hc
  have h2 : ¬ c = '.' := by intro h; subst h; simp [regexSpecial] at hc
  have h3 : ¬ c = '[' := by intro h; subst h; simp [regexSpecial] at hc
  have h4 : ¬ c = '(' := by intro h; subst h; simp [regexSpecial] at hc
  rw [parseItems.eq_def]
  simp only [if_neg h1, if_neg h2, if_neg h3, if_neg h4]
  rw [if_neg (by rw [hc]; exact Bool.false_ne_true)]
  rw [takeStar_no_star _ _ hstar]

set_option maxHeartbeats 2000000 in
theorem parseItems_class_star (F : Nat) (v : Bytes) :
    parseItems (F + 3) ('[' :: '^' :: '/' :: ']' :: '*' :: v) =
      (parseItems (F + 2) v).map fun items =>
        RE.star (.cls true [CItem.single '/']) :: items := rfl

theorem Matches_lits (u : Bytes) :
    ∀ w, Matches (seqList (litsRE u)) w ↔ w = u := by
  induction u with
  | nil =>
    intro w
    constructor
    · exact eps_inv
    · rintro rfl; exact .eps
  | cons c t ih =>
    intro w
    constructor
    · intro h
      rcases seq_inv h with ⟨s1, t1, hw, hs1, ht1⟩
      rw [lit_inv hs1] at hw
      rw [(ih t1).mp ht1] at hw
      simpa using hw
    · rintro rfl
      exact Matches.seq (.lit c) ((ih t).mpr rfl)

theorem Matches_seqList_append (rs ss : List RE) :
    ∀ w, Matches (seqList (rs ++ ss)) w ↔
      ∃ a b, w = a ++ b ∧ Matches (seqList rs) a ∧ Matches (seqList ss) b := by
  induction rs with
  | nil =>
    intro w
    constructor
    · intro h; exact ⟨[], w, rfl, .eps, h⟩
    · rintro ⟨a, b, rfl, ha, hb⟩
      have ha' := eps_inv ha
      subst ha'
      simpa using hb
  | cons r rs ih =>
    intro w
    constructor
    · intro h
      rcases seq_inv h with ⟨s1, t1, rfl, hs1, ht1⟩
      rcases (ih t1).mp ht1 with ⟨a, b, rfl, ha, hb⟩
      exact ⟨s1 ++ a, b, by simp, Matches.seq hs1 ha, hb⟩
    · rintro ⟨a, b, rfl, ha, hb⟩
      rcases seq_inv ha with ⟨s1, t1, rfl, hs1, ht1⟩
      have h2 : Matches (seqList (rs ++ ss)) (t1 ++ b) :=
        (ih _).mpr ⟨t1, b, rfl, ht1, hb⟩
      simpa using Matches.seq hs1 h2

theorem star_slash_notin :
    ∀ (n : Nat) (w : Bytes), w.length ≤ n →
      Matches (.star (.cls true [CItem.single '/'])) w → '/' ∉ w := by
  intro n
  induction n with
  | zero =>
    intro w hw _
    have hnil : w = [] := List.eq_nil_of_length_eq_zero (Nat.le_zero.mp hw)
    subst hnil; simp
  | succ n ih =>
    intro w hw h
    rcases star_inv h with h0 | ⟨a, b, rfl, hne, ha, hb⟩
    · subst h0; simp
    · rcases cls_inv ha with ⟨c, rfl, hcm⟩
      have hc : ¬ c = '/' := by
        simp [clsMatch, cmatch] at hcm
        exact hcm
      have hblen : b.length ≤ n := by
        simp at hw
        omega
      have hbnot := ih b hblen hb
      intro hmem
      rcases List.mem_append.mp hmem with hm | hm
      · simp at hm
        exact hc hm.symm
      · exact hbnot hm

theorem star_slash_of_notin :
    ∀ (w : Bytes), '/' ∉ w →
      Matches (.star (.cls true [CItem.single '/'])) w := by
  intro w
  induction w with
  | nil => intro _; exact .starNil
  | cons c t ih =>
    intro h
    have hc : ¬ c = '/' := fun e => by
      subst e; exact h (List.mem_cons_self _ _)
    have ht : '/' ∉ t := fun hm => h (List.mem_cons_of_mem c hm)
    have h1 : Matches (.cls true [CItem.single '/']) [c] :=
      .cls (by simp [clsMatch, cmatch]; exact hc)
    simpa using Matches.starCons h1 (ih ht)

theorem stripAnchors_wrap (p : Bytes) :
    stripAnchors ('^' :: p ++ ['$']) = some p := by
  show (if (p ++ ['$']).getLast? = some '$' then
    some (p ++ ['$']).dropLast else none) = some p
  rw [if_pos (by simp)]
  simp

theorem star_any_matches : ∀ x : Bytes, Matches (.star .any) x := by
  intro x
  induction x with
  | nil => exact .starNil
  | cons c t ih => exact Matches.starCons (.any c) ih

theorem goRegexMatch_star_pattern (x : Bytes) :
    goRegexMatch (convertPatternToRegex "*".toList) x = some true := by
  have hconv : convertPatternToRegex "*".toList = "^.*$".toList := by decide
  rw [hconv]
  unfold goRegexMatch
  have hp : (stripAnchors "^.*$".toList).bind parseRegexBody =
      some (seqList [RE.star .any]) := rfl
  rw [hp]
  simp only [Option.some.injEq]
  rw [fullMatch_iff]
  simpa using Matches.seq (star_any_matches x) Matches.eps

theorem globLit_mem {s : Bytes} (hs : globLit s = true) {c : Char}
    (hc : c ∈ s) :
    ¬ c = '\\' ∧ ¬ c = '*' ∧ ¬ c = '?' ∧ ¬ c = '[' ∧ ¬ c = ']' ∧
      ¬ c = '{' ∧ ¬ c = '}' := by
  unfold globLit at hs
  rw [List.all_eq_true] at hs
  have := hs c hc
  simp at this
  obtain ⟨⟨⟨⟨⟨⟨h1, h2⟩, h3⟩, h4⟩, h5⟩, h6⟩, h7⟩ := this
  exact ⟨h1, h2, h3, h4, h5, h6, h7⟩

theorem globLit_tail {c : Char} {t : Bytes} (h : globLit (c :: t) = true) :
    globLit t = true := by
  unfold globLit at h ⊢
  rw [List.all_eq_true] at h ⊢
  exact fun x hx => h x (List.mem_cons_of_mem c hx)

theorem quoteMeta_cons_special {c : Char} (h : regexSpecial c = true)
    (t : Bytes) : quoteMeta (c :: t) = '\\' :: c :: quoteMeta t := by
  unfold quoteMeta
  rw [List.flatMap_cons, if_pos h]
  rfl

theorem quoteMeta_cons_plain {c : Char} (h : ¬ regexSpecial c = true)
    (t : Bytes) : quoteMeta (c :: t) = c :: quoteMeta t := by
  unfold quoteMeta
  rw [List.flatMap_cons, if_neg h]
  rfl

theorem not_mem_quoteMeta {d : Char} (hbs : ¬ d = '\\') {s : Bytes}
    (hs : d ∉ s) : d ∉ quoteMeta s := by
  induction s with
  | nil => simp [quoteMeta]
  | cons c t ih =>
    intro hmem
    have hdc : ¬ d = c := fun e => hs (e ▸ List.mem_cons_self c t)
    have ht : d ∉ t := fun hm => hs (List.mem_cons_of_mem c hm)
    by_cases hsp : regexSpecial c = true
    · rw [quoteMeta_cons_special hsp] at hmem
      rcases List.mem_cons.mp hmem with h1 | hmem2
      · exact hbs h1
      rcases List.mem_cons.mp hmem2 with h2 | h3
      · exact hdc h2
      · exact ih ht h3
    · rw [quoteMeta_cons_plain hsp] at hmem
      rcases List.mem_cons.mp hmem with h2 | h3
      · exact hdc h2
      · exact ih ht h3

theorem quoteMeta_eq_nil {s : Bytes} (h : quoteMeta s = []) : s = [] := by
  cases s with
  | nil => rfl
  | cons c t =>
    by_cases hsp : regexSpecial c = true
    · rw [quoteMeta_cons_special hsp] at h
      cases h
    · rw [quoteMeta_cons_plain hsp] at h
      cases h

theorem quoteMeta_length_ge (s : Bytes) :
    s.length ≤ (quoteMeta s).length := by
  induction s with
  | nil => simp [quoteMeta]
  | cons c t ih =>
    by_cases hsp : regexSpecial c = true
    · rw [quoteMeta_cons_special hsp]
      simp only [List.length_cons]
      omega
    · rw [quoteMeta_cons_plain hsp]
      simp only [List.length_cons]
      omega

theorem isPrefixOf_snd_ne (a b : Char) (p2 : Bytes) (x : Char) (t : Bytes)
    (h : t.head? ≠ some b) :
    List.isPrefixOf (a :: b :: p2) (x :: t) = false := by
  cases t with
  | nil =>
    show (a == x && List.isPrefixOf (b :: p2) ([] : Bytes)) = false
    simp [List.isPrefixOf]
  | cons y t' =>
    show (a == x && (b == y && List.isPrefixOf p2 t')) = false
    have hby : ¬ b = y := fun e => h (by simp [e.symm])
    simp [hby]

theorem replaceAll_snd_absent (V : Bytes) (a b : Char) (p2 rep : Bytes)
    (h : b ∉ V) : replaceAll V (a :: b :: p2) rep = V := by
  induction V with
  | nil => exact replaceAll_nil _ _
  | cons x t ih =>
    have hhd : t.head? ≠ some b := by
      cases t with
      | nil => simp
      | cons y t' =>
        intro he
        have hy : y = b := by simpa using he
        exact h (by
          rw [← hy]
          exact List.mem_cons_of_mem x (List.mem_cons_self y t'))
    rw [replaceAll_neg x t _ rep (by simp) (isPrefixOf_snd_ne a b p2 x t hhd)]
    rw [ih (fun hm => h (List.mem_cons_of_mem x hm))]

theorem replaceAll_qm_skip (u : Bytes) (d : Char) (p2 rep w : Bytes)
    (hbs : '\\' ∉ u) (hd : d ∉ u) :
    replaceAll (quoteMeta u ++ w) ('\\' :: d :: p2) rep =
      quoteMeta u ++ replaceAll w ('\\' :: d :: p2) rep := by
  induction u with
  | nil => simp [quoteMeta]
  | cons c t ih =>
    have hcbs : ¬ c = '\\' := fun e => hbs (e ▸ List.mem_cons_self c t)
    have hcd : ¬ c = d := fun e => hd (e ▸ List.mem_cons_self c t)
    have hbs' : '\\' ∉ t := fun hm => hbs (List.mem_cons_of_mem c hm)
    have hd' : d ∉ t := fun hm => hd (List.mem_cons_of_mem c hm)
    by_cases hsp : regexSpecial c = true
    · rw [quoteMeta_cons_special hsp]
      rw [List.cons_append, List.cons_append]
      rw [replaceAll_neg '\\' (c :: (quoteMeta t ++ w)) _ rep (by simp)
        (by
          show (('\\' : Char) == '\\' && ((d == c) &&
            List.isPrefixOf p2 (quoteMeta t ++ w))) = false
          have hdc : ¬ d = c := fun e => hcd e.symm
          simp [hdc])]
      rw [replaceAll_neg c (quoteMeta t ++ w) _ rep (by simp)
        (isPrefixOf_head_ne '\\' c _ _ (fun e => hcbs e.symm))]
      rw [ih hbs' hd']
      rfl
    · rw [quoteMeta_cons_plain hsp]
      rw [List.cons_append]
      rw [replaceAll_neg c (quoteMeta t ++ w) _ rep (by simp)
        (isPrefixOf_head_ne '\\' c _ _ (fun e => hcbs e.symm))]
      rw [ih hbs' hd']
      rfl

theorem isPrefixOf_snd_absent (a b : Char) (p2 t : Bytes) (h : b ∉ t) :
    List.isPrefixOf (a :: b :: p2) t = false := by
  cases t with
  | nil => rfl
  | cons x t' =>
    apply isPrefixOf_snd_ne
    cases t' with
    | nil => simp
    | cons y t'' =>
      intro he
      have hy : y = b := by simpa using he
      exact h (by
        rw [← hy]
        exact List.mem_cons_of_mem x (List.mem_cons_self y t''))

theorem braceFix_no_lbrace (s : Bytes) (hs : '{' ∉ s) :
    ∀ f, braceFix f s = s := by
  intro f
  induction f generalizing s with
  | zero => rfl
  | succ f ih =>
    cases s with
    | nil => rfl
    | cons c t =>
      rw [braceFix.eq_def]
      split
      · rfl
      · rename_i fa fb heq
        injection heq with hf
        subst hf
        split
        · rename_i heq2; cases heq2
        · rename_i rest heq2
          injection heq2 with e1 e2
          exact absurd (List.mem_cons_of_mem c
            (by rw [e2]; exact List.mem_cons_self _ _)) hs
        · rename_i c' rest heq2
          injection heq2 with e1 e2
          subst e1; subst e2
          rw [ih t (fun hm => hs (List.mem_cons_of_mem c hm))]

theorem convert_globlit_star (u v : Bytes) (hu : globLit u = true)
    (hv : globLit v = true) (hne : u ++ "*".toList ++ v ≠ "*".toList) :
    convertPatternToRegex (u ++ "*".toList ++ v) =
      '^' :: (quoteMeta u ++ "[^/]*".toList ++ quoteMeta v) ++ ['$'] := by
  have hbs_u : '\\' ∉ u := fun hm => (globLit_mem hu hm).1 rfl
  have hst_u : '*' ∉ u := fun hm => (globLit_mem hu hm).2.1 rfl
  have hq_u : '?' ∉ u := fun hm => (globLit_mem hu hm).2.2.1 rfl
  have hlb_u : '[' ∉ u := fun hm => (globLit_mem hu hm).2.2.2.1 rfl
  have hrb_u : ']' ∉ u := fun hm => (globLit_mem hu hm).2.2.2.2.1 rfl
  have hlc_u : '{' ∉ u := fun hm => (globLit_mem hu hm).2.2.2.2.2.1 rfl
  have hbs_v : '\\' ∉ v := fun hm => (globLit_mem hv hm).1 rfl
  have hst_v : '*' ∉ v := fun hm => (globLit_mem hv hm).2.1 rfl
  have hq_v : '?' ∉ v := fun hm => (globLit_mem hv hm).2.2.1 rfl
  have hlb_v : '[' ∉ v := fun hm => (globLit_mem hv hm).2.2.2.1 rfl
  have hrb_v : ']' ∉ v := fun hm => (globLit_mem hv hm).2.2.2.2.1 rfl
  have hlc_v : '{' ∉ v := fun hm => (globLit_mem hv hm).2.2.2.2.2.1 rfl
  have hst_V : '*' ∉ quoteMeta v := not_mem_quoteMeta (by decide) hst_v
  have hq_V : '?' ∉ quoteMeta v := not_mem_quoteMeta (by decide) hq_v
  have hlb_V : '[' ∉ quoteMeta v := not_mem_quoteMeta (by decide) hlb_v
  have hrb_V : ']' ∉ quoteMeta v := not_mem_quoteMeta (by decide) hrb_v
  have hlc_V : '{' ∉ quoteMeta v := not_mem_quoteMeta (by decide) hlc_v
  have hlc_U : '{' ∉ quoteMeta u := not_mem_quoteMeta (by decide) hlc_u
  have hqm : quoteMeta (u ++ "*".toList ++ v) =
      quoteMeta u ++ "\\*".toList ++ quoteMeta v := by
    rw [quoteMeta_append, quoteMeta_append]
    rfl
  have h1 : replaceAll (quoteMeta u ++ "\\*".toList ++ quoteMeta v)
      "\\*\\*".toList ".*".toList =
      quoteMeta u ++ "\\*".toList ++ quoteMeta v := by
    rw [List.append_assoc]
    rw [show ("\\*".toList ++ quoteMeta v : Bytes) =
      '\\' :: '*' :: quoteMeta v from rfl]
    rw [show ("\\*\\*".toList : Bytes) = '\\' :: '*' :: "\\*".toList from rfl]
    rw [replaceAll_qm_skip u '*' _ _ _ hbs_u hst_u]
    rw [replaceAll_neg '\\' ('*' :: quoteMeta v) _ _ (by simp)
      (by
        show (('\\' : Char) == '\\' && (('*' : Char) == '*' &&
          List.isPrefixOf ('\\' :: '*' :: ([] : Bytes)) (quoteMeta v))) =
          false
        rw [isPrefixOf_snd_absent '\\' '*' [] (quoteMeta v) hst_V]
        simp)]
    rw [replaceAll_neg '*' (quoteMeta v) _ _ (by simp)
      (isPrefixOf_head_ne '\\' '*' _ _ (by decide))]
    rw [replaceAll_snd_absent (quoteMeta v) '\\' '*' _ _ hst_V]
  have hne2 : quoteMeta u ++ "\\*".toList ++ quoteMeta v ≠ "\\*".toList := by
    intro h
    apply hne
    have hlen := congrArg List.length h
    simp at hlen
    have hu0 : u = [] :=
      quoteMeta_eq_nil (List.eq_nil_of_length_eq_zero (by omega))
    have hv0 : v = [] :=
      quoteMeta_eq_nil (List.eq_nil_of_length_eq_zero (by omega))
    subst hu0; subst hv0
    rfl
  have h2 : replaceAll (quoteMeta u ++ "\\*".toList ++ quoteMeta v)
      "\\*".toList "[^/]*".toList =
      quoteMeta u ++ "[^/]*".toList ++ quoteMeta v := by
    rw [List.append_assoc]
    rw [show ("\\*".toList ++ quoteMeta v : Bytes) =
      '\\' :: '*' :: quoteMeta v from rfl]
    rw [show ("\\*".toList : Bytes) = '\\' :: '*' :: ([] : Bytes) from rfl]
    rw [replaceAll_qm_skip u '*' _ _ _ hbs_u hst_u]
    rw [replaceAll_pos '\\' ('*' :: quoteMeta v) ('\\' :: '*' :: [])
      "[^/]*".toList (by simp)
      (by
        show (('\\' : Char) == '\\' && (('*' : Char) == '*' &&
          List.isPrefixOf ([] : Bytes) (quoteMeta v))) = true
        simp [List.isPrefixOf])]
    rw [show (List.drop ('\\' :: '*' :: ([] : Bytes)).length
      ('\\' :: ('*' :: quoteMeta v)) : Bytes) = quoteMeta v from rfl]
    rw [replaceAll_snd_absent (quoteMeta v) '\\' '*' _ _ hst_V]
    rw [← List.append_assoc]
  have h3 : replaceAll (quoteMeta u ++ "[^/]*".toList ++ quoteMeta v)
      "\\?".toList ".".toList =
      quoteMeta u ++ "[^/]*".toList ++ quoteMeta v := by
    rw [List.append_assoc]
    rw [show ("[^/]*".toList ++ quoteMeta v : Bytes) =
      '[' :: '^' :: '/' :: ']' :: '*' :: quoteMeta v from rfl]
    rw [show ("\\?".toList : Bytes) = '\\' :: '?' :: ([] : Bytes) from rfl]
    rw [replaceAll_qm_skip u '?' _ _ _ hbs_u hq_u]
    rw [replaceAll_neg '[' _ _ _ (by simp)
      (isPrefixOf_head_ne '\\' '[' _ _ (by decide))]
    rw [replaceAll_neg '^' _ _ _ (by simp)
      (isPrefixOf_head_ne '\\' '^' _ _ (by decide))]
    rw [replaceAll_neg '/' _ _ _ (by simp)
      (isPrefixOf_head_ne '\\' '/' _ _ (by decide))]
    rw [replaceAll_neg ']' _ _ _ (by simp)
      (isPrefixOf_head_ne '\\' ']' _ _ (by decide))]
    rw [replaceAll_neg '*' _ _ _ (by simp)
      (isPrefixOf_head_ne '\\' '*' _ _ (by decide))]
    rw [replaceAll_snd_absent (quoteMeta v) '\\' '?' _ _ hq_V]
  have h4 : replaceAll (quoteMeta u ++ "[^/]*".toList ++ quoteMeta v)
      "\\[!".toList "[^".toList =
      quoteMeta u ++ "[^/]*".toList ++ quoteMeta v := by
    rw [List.append_assoc]
    rw [show ("[^/]*".toList ++ quoteMeta v : Bytes) =
      '[' :: '^' :: '/' :: ']' :: '*' :: quoteMeta v from rfl]
    rw [show ("\\[!".toList : Bytes) = '\\' :: '[' :: "!".toList from rfl]
    rw [replaceAll_qm_skip u '[' _ _ _ hbs_u hlb_u]
    rw [replaceAll_neg '[' _ _ _ (by simp)
      (isPrefixOf_head_ne '\\' '[' _ _ (by decide))]
    rw [replaceAll_neg '^' _ _ _ (by simp)
      (isPrefixOf_head_ne '\\' '^' _ _ (by decide))]
    rw [replaceAll_neg '/' _ _ _ (by simp)
      (isPrefixOf_head_ne '\\' '/' _ _ (by decide))]
    rw [replaceAll_neg ']' _ _ _ (by simp)
      (isPrefixOf_head_ne '\\' ']' _ _ (by decide))]
    rw [replaceAll_neg '*' _ _ _ (by simp)
      (isPrefixOf_head_ne '\\' '*' _ _ (by decide))]
    rw [replaceAll_snd_absent (quoteMeta v) '\\' '[' _ _ hlb_V]
  have h5 : replaceAll (quoteMeta u ++ "[^/]*".toList ++ quoteMeta v)
      "\\[".toList "[".toList =
      quoteMeta u ++ "[^/]*".toList ++ quoteMeta v := by
    rw [List.append_assoc]
    rw [show ("[^/]*".toList ++ quoteMeta v : Bytes) =
      '[' :: '^' :: '/' :: ']' :: '*' :: quoteMeta v from rfl]
    rw [show ("\\[".toList : Bytes) = '\\' :: '[' :: ([] : Bytes) from rfl]
    rw [replaceAll_qm_skip u '[' _ _ _ hbs_u hlb_u]
    rw [replaceAll_neg '[' _ _ _ (by simp)
      (isPrefixOf_head_ne '\\' '[' _ _ (by decide))]
    rw [replaceAll_neg '^' _ _ _ (by simp)
      (isPrefixOf_head_ne '\\' '^' _ _ (by decide))]
    rw [replaceAll_neg '/' _ _ _ (by simp)
      (isPrefixOf_head_ne '\\' '/' _ _ (by decide))]
    rw [replaceAll_neg ']' _ _ _ (by simp)
      (isPrefixOf_head_ne '\\' ']' _ _ (by decide))]
    rw [replaceAll_neg '*' _ _ _ (by simp)
      (isPrefixOf_head_ne '\\' '*' _ _ (by decide))]
    rw [replaceAll_snd_absent (quoteMeta v) '\\' '[' _ _ hlb_V]
  have h6 : replaceAll (quoteMeta u ++ "[^/]*".toList ++ quoteMeta v)
      "\\]".toList "]".toList =
      quoteMeta u ++ "[^/]*".toList ++ quoteMeta v := by
    rw [List.append_assoc]
    rw [show ("[^/]*".toList ++ quoteMeta v : Bytes) =
      '[' :: '^' :: '/' :: ']' :: '*' :: quoteMeta v from rfl]
    rw [show ("\\]".toList : Bytes) = '\\' :: ']' :: ([] : Bytes) from rfl]
    rw [replaceAll_qm_skip u ']' _ _ _ hbs_u hrb_u]
    rw [replaceAll_neg '[' _ _ _ (by simp)
      (isPrefixOf_head_ne '\\' '[' _ _ (by decide))]
    rw [replaceAll_neg '^' _ _ _ (by simp)
      (isPrefixOf_head_ne '\\' '^' _ _ (by decide))]
    rw [replaceAll_neg '/' _ _ _ (by simp)
      (isPrefixOf_head_ne '\\' '/' _ _ (by decide))]
    rw [replaceAll_neg ']' _ _ _ (by simp)
      (isPrefixOf_head_ne '\\' ']' _ _ (by decide))]
    rw [replaceAll_neg '*' _ _ _ (by simp)
      (isPrefixOf_head_ne '\\' '*' _ _ (by decide))]
    rw [replaceAll_snd_absent (quoteMeta v) '\\' ']' _ _ hrb_V]
  have hnb : '{' ∉ quoteMeta u ++ "[^/]*".toList ++ quoteMeta v := by
    intro h
    rcases List.mem_append.mp h with h' | h'
    · rcases List.mem_append.mp h' with h'' | h''
      · exact hlc_U h''
      · simp at h''
    · exact hlc_V h'
  have h7 : braceFix
      ((quoteMeta u ++ "[^/]*".toList ++ quoteMeta v).length + 1)
      (quoteMeta u ++ "[^/]*".toList ++ quoteMeta v) =
      quoteMeta u ++ "[^/]*".toList ++ quoteMeta v :=
    braceFix_no_lbrace _ hnb _
  simp only [convertPatternToRegex]
  rw [hqm, h1, if_neg hne2, h2, h3, h4, h5, h6, h7]

theorem parseItems_cons_esc (c : Char) (t : Bytes) (f : Nat)
    (hstar : t.head? ≠ some '*') :
    parseItems (f + 1) ('\\' :: c :: t) =
      (parseItems f t).map fun items => RE.lit c :: items := by
  show (match takeStar (RE.lit c) t with
    | (r, rest') => Option.map (fun items => r :: items) (parseItems f rest'))
    = Option.map (fun items => RE.lit c :: items) (parseItems f t)
  rw [takeStar_no_star (RE.lit c) t hstar]

theorem append_head_ne_star2 {U w : Bytes} (hU : '*' ∉ U)
    (hw : w.head? ≠ some '*') : (U ++ w).head? ≠ some '*' := by
  cases U with
  | nil => simpa using hw
  | cons x t =>
    intro h
    have hx : x = '*' := by simpa using h
    subst hx
    exact hU (List.mem_cons_self _ _)

theorem parseItems_qm_front (u : Bytes) (hu : globLit u = true) :
    ∀ (w : Bytes) (f : Nat), w.head? ≠ some '*' →
      parseItems (u.length + f) (quoteMeta u ++ w) =
        (parseItems f w).map fun items => litsRE u ++ items := by
  induction u with
  | nil =>
    intro w f _
    simp only [List.length_nil, Nat.zero_add]
    rw [show (quoteMeta [] ++ w : Bytes) = w from rfl]
    cases parseItems f w <;> simp [litsRE]
  | cons c t ih =>
    intro w f hstar
    have hmem := globLit_mem hu (List.mem_cons_self c t)
    have ht : globLit t = true := globLit_tail hu
    have hst_t : '*' ∉ t := fun hm => (globLit_mem ht hm).2.1 rfl
    have hst_T : '*' ∉ quoteMeta t := not_mem_quoteMeta (by decide) hst_t
    have hhd : (quoteMeta t ++ w).head? ≠ some '*' :=
      append_head_ne_star2 hst_T hstar
    have hfe : (c :: t).length + f = (t.length + f) + 1 := by
      simp [List.length_cons]
      omega
    rw [hfe]
    by_cases hsp : regexSpecial c = true
    · rw [quoteMeta_cons_special hsp]
      rw [List.cons_append, List.cons_append]
      rw [parseItems_cons_esc c (quoteMeta t ++ w) _ hhd]
      rw [ih ht w f hstar]
      cases parseItems f w <;> simp [litsRE]
    · rw [quoteMeta_cons_plain hsp]
      rw [List.cons_append]
      rw [parseItems_cons_plain c (quoteMeta t ++ w) _
        (by
          cases hb : regexSpecial c
          · rfl
          · exact absurd hb hsp) hhd]
      rw [ih ht w f hstar]
      cases parseItems f w <;> simp [litsRE]

theorem parseItems_qm_all (v : Bytes) (hv : globLit v = true) :
    ∀ f, parseItems (v.length + f + 1) (quoteMeta v) = some (litsRE v) := by
  intro f
  have h := parseItems_qm_front v hv [] (f + 1) (by simp)
  rw [List.append_nil] at h
  rw [show (List.length v + f + 1 : Nat) = List.length v + (f + 1) from rfl]
  rw [h]
  rw [show (parseItems (f + 1) ([] : Bytes)) = some [] from rfl]
  simp

theorem parseRegexBody_qm_star (u v : Bytes) (hu : globLit u = true)
    (hv : globLit v = true) :
    parseRegexBody (quoteMeta u ++ "[^/]*".toList ++ quoteMeta v) =
      some (seqList (litsRE u ++
        RE.star (.cls true [CItem.single '/']) :: litsRE v)) := by
  unfold parseRegexBody
  have hku : u.length ≤ (quoteMeta u).length := quoteMeta_length_ge u
  have hkv : v.length ≤ (quoteMeta v).length := quoteMeta_length_ge v
  have hlen : (quoteMeta u ++ "[^/]*".toList ++ quoteMeta v).length + 1 =
      u.length + (((quoteMeta u).length - u.length) +
        ((quoteMeta v).length - v.length) + v.length + 6) := by
    simp
    omega
  rw [hlen, List.append_assoc]
  rw [show ("[^/]*".toList ++ quoteMeta v : Bytes) =
    '[' :: '^' :: '/' :: ']' :: '*' :: quoteMeta v from rfl]
  rw [parseItems_qm_front u hu _ _ (by simp)]
  rw [show ((quoteMeta u).length - u.length) +
      ((quoteMeta v).length - v.length) + v.length + 6 =
      (((quoteMeta u).length - u.length) +
        ((quoteMeta v).length - v.length) + v.length + 3) + 3 from by omega]
  rw [parseItems_class_star _ (quoteMeta v)]
  rw [show (((quoteMeta u).length - u.length) +
      ((quoteMeta v).length - v.length) + v.length + 3) + 2 =
      v.length + (((quoteMeta u).length - u.length) +
        ((quoteMeta v).length - v.length) + 4) + 1 from by omega]
  rw [parseItems_qm_all v hv _]
  rfl

theorem goRegexMatch_globlit_star (u v x : Bytes) (hu : globLit u = true)
    (hv : globLit v = true) (hne : u ++ "*".toList ++ v ≠ "*".toList) :
    goRegexMatch (convertPatternToRegex (u ++ "*".toList ++ v)) x =
        some true ↔
      ∃ m, x = u ++ m ++ v ∧ '/' ∉ m := by
  rw [convert_globlit_star u v hu hv hne]
  unfold goRegexMatch
  rw [stripAnchors_wrap]
  rw [show (some (quoteMeta u ++ "[^/]*".toList ++ quoteMeta v)).bind
    parseRegexBody =
    parseRegexBody (quoteMeta u ++ "[^/]*".toList ++ quoteMeta v) from rfl]
  rw [parseRegexBody_qm_star u v hu hv]
  simp only [Option.some.injEq]
  rw [fullMatch_iff]
  constructor
  · intro h
    rcases (Matches_seqList_append (litsRE u) _ x).mp h with
      ⟨a, b, rfl, ha, hb⟩
    have hau : a = u := (Matches_lits u a).mp ha
    subst hau
    rcases seq_inv hb with ⟨m, c, rfl, hm, hcv⟩
    have hcv' : c = v := (Matches_lits v c).mp hcv
    subst hcv'
    refine ⟨m, by simp, ?_⟩
    exact star_slash_notin m.length m le_rfl hm
  · rintro ⟨m, rfl, hmns⟩
    apply (Matches_seqList_append (litsRE u) _ _).mpr
    refine ⟨u, m ++ v, by simp, (Matches_lits u u).mpr rfl, ?_⟩
    exact Matches.seq (star_slash_of_notin m hmns) ((Matches_lits v v).mpr rfl)

/-- C6: the pattern consisting of exactly `*` compiles to a matcher accepting
every path, separators included; a `*` occurring inside any larger pattern
whose surrounding context is glob-literal (no further `*`, `?`, `[`, `]`,
braces or backslash — regex specials such as `.` are fine, `QuoteMeta`
escapes them) matches exactly the runs of characters that contain no `/`. -/
theorem c6_star_matching :
    (∀ x : Bytes, goRegexMatch (convertPatternToRegex "*".toList) x =
      some true) ∧
    (∀ u v x : Bytes, globLit u = true → globLit v = true →
      u ++ "*".toList ++ v ≠ "*".toList →
      (goRegexMatch (convertPatternToRegex (u ++ "*".toList ++ v)) x =
          some true ↔
        ∃ m, x = u ++ m ++ v ∧ '/' ∉ m)) :=
  ⟨goRegexMatch_star_pattern,
   fun u v x hu hv hne => goRegexMatch_globlit_star u v x hu hv hne⟩

/-- Witness for C6 at concrete inputs: `*` accepts a path with a separator;
`*.go` accepts `main.go` (the `*` matching `main`) but not `src/main.go`;
`src/*go` accepts `src/abgo`. -/
theorem c6_witness :
    goRegexMatch (convertPatternToRegex "*".toList) "a/b".toList =
      some true ∧
    goRegexMatch (convertPatternToRegex ("*.go".toList)) "main.go".toList =
      some true ∧
    ¬ goRegexMatch (convertPatternToRegex ("*.go".toList))
      "src/main.go".toList = some true ∧
    goRegexMatch
      (convertPatternToRegex ("src/".toList ++ "*".toList ++ "go".toList))
      "src/abgo".toList = some true :=
  ⟨c6_star_matching.1 "a/b".toList,
   (c6_star_matching.2 [] ".go".toList "main.go".toList
      (by decide) (by decide) (by decide)).mpr
     ⟨"main".toList, by decide, by decide⟩,
   fun h => by
     rcases (c6_star_matching.2 [] ".go".toList
        "src/main.go".toList (by decide) (by decide) (by decide)).mp h with
       ⟨m, hm, hns⟩
     have hc := congrArg (fun l : Bytes => List.count '/' l) hm
     simp only [List.count_append] at hc
     rw [List.count_eq_zero.mpr hns] at hc
     exact absurd hc (by decide),
   (c6_star_matching.2 "src/".toList "go".toList "src/abgo".toList
      (by decide) (by decide) (by decide)).mpr
     ⟨"ab".toList, by decide, by decide⟩⟩
